import Mathlib

/-!
Shallow embedding of the `SubtitleParser` core of
`tubearchivist/home/src/index/video.py` (class `SubtitleParser`,
methods `_parse_cues`, `_cue_cleaner`, `_match_text_lines`,
`_add_id`, `_timestamp_check`, `get_subtitle_str`).

Strings are embedded as `List Char`.  Python dict cues are embedded as a
`Cue` record with `Option` fields for the optionally-present keys
`start`, `end` (called `stop?` here since `end` is reserved) and `id`.
Python's reference semantics for the cue dicts (the same dict object can
be reachable from `parsed_cue_list` and several positions of `matched`)
is embedded by keeping one store `cues : List Cue` and letting
`matched` hold indices into that store.  Code paths that raise an
uncaught Python exception are embedded as `PyRes.exn`.
-/

namespace TubeArchivist

abbrev Str := List Char

/-- Result of running a piece of Python code: either a value or an
uncaught exception. -/
inductive PyRes (α : Type) where
  | ok : α → PyRes α
  | exn : PyRes α
deriving DecidableEq, Repr

/-- One cue dict as built by `_cue_cleaner`: keys `start`/`end` are only
present once a timestamp line was seen, `id` only after `_add_id`.
`stop?` embeds the dict key `"end"` (`end` is reserved in Lean). -/
structure Cue where
  start? : Option Str := none
  stop? : Option Str := none
  lines : List Str := []
  id? : Option Nat := none
deriving DecidableEq, Repr

instance : Inhabited Cue := ⟨{}⟩

/-- Dereference a cue-store index (Python: follow the dict reference).
Indices produced by the embedding are always in range. -/
def getCue (cues : List Cue) (i : Nat) : Cue := cues.getD i default

/-! ### The regular expressions

`time_reg = ^([0-9]{2}:?){3}\.[0-9]{3} --> ([0-9]{2}:?){3}\.[0-9]{3}`,
`stamp_reg = <([0-9]{2}:?){3}\.[0-9]{3}>`, `tag_reg = </?c>`.
The `{n}` / `?` constructs are deterministic here: not taking a present
`:` makes the following `[0-9]` or `\.` fail on that `:`, so a greedy
left-to-right matcher is equivalent to the backtracking regex engine. -/

/-- Match one `[0-9]{2}:?` group; returns (consumed, rest). -/
def matchGroup (s : Str) : Option (Str × Str) :=
  match s with
  | a :: b :: rest =>
    if a.isDigit && b.isDigit then
      if rest.head? = some ':' then some ([a, b, ':'], rest.tail)
      else some ([a, b], rest)
    else none
  | _ => none

/-- Match `([0-9]{2}:?){3}\.[0-9]{3}`; returns (consumed, rest). -/
def matchTimePart (s : Str) : Option (Str × Str) :=
  match matchGroup s with
  | none => none
  | some (g1, r1) =>
    match matchGroup r1 with
    | none => none
    | some (g2, r2) =>
      match matchGroup r2 with
      | none => none
      | some (g3, r3) =>
        match r3 with
        | '.' :: x :: y :: z :: r4 =>
          if x.isDigit && y.isDigit && z.isDigit then
            some (g1 ++ g2 ++ g3 ++ ('.' :: [x, y, z]), r4)
          else none
        | _ => none

/-- `re.match(time_reg, line)` together with
`re.search(time_reg, line).group().split(" --> ")`: if the line starts
with `<time> --> <time>`, return the two timestamp strings. -/
def timeRegMatch (s : Str) : Option (Str × Str) :=
  match matchTimePart s with
  | none => none
  | some (t1, r1) =>
    match r1 with
    | ' ' :: '-' :: '-' :: '>' :: ' ' :: r2 =>
      match matchTimePart r2 with
      | none => none
      | some (t2, _) => some (t1, t2)
    | _ => none

/-- `re.sub(tag_reg, "", s)`: delete every `<c>` and `</c>`. -/
def stripTags : Str → Str
  | [] => []
  | '<' :: '/' :: 'c' :: '>' :: r2 => stripTags r2
  | '<' :: 'c' :: '>' :: r2 => stripTags r2
  | c :: rest => c :: stripTags rest

/-- Scanner for `re.sub(stamp_reg, "", s)`, structurally recursive on a
fuel argument so that it reduces in the kernel.  Each recursive call
consumes at least one character of `s` (`matchTimePart` consumes at
least ten, see `matchTimePart_length`), so fuel `s.length` is enough
and the fuel-exhausted branch is never reached from `stripStamps`. -/
def stripStampsF : Nat → Str → Str
  | 0, s => s
  | _ + 1, [] => []
  | fuel + 1, c :: rest =>
    if c = '<' then
      match matchTimePart rest with
      | some (_, '>' :: r3) => stripStampsF fuel r3
      | _ => c :: stripStampsF fuel rest
    else c :: stripStampsF fuel rest

/-- `re.sub(stamp_reg, "", s)`: delete every `<HH:MM:SS.mmm>` marker. -/
def stripStamps (s : Str) : Str := stripStampsF s.length s

/-- Python truthiness of `clean.strip()`: false iff every character is
Python whitespace. -/
def pySpace (c : Char) : Bool :=
  c = ' ' || c = '\t' || c = '\n' || c = '\r' ||
    c = Char.ofNat 11 || c = Char.ofNat 12

def isBlank (s : Str) : Bool := s.all pySpace

/-- Python `self.all_text_lines[-4:]`. -/
def last4 (q : List Str) : List Str := q.drop (q.length - 4)

/-! ### `_cue_cleaner` and `_parse_cues` -/

/-- One loop iteration of `_cue_cleaner` over a line of the cue block,
also threading the shared `all_text_lines` queue. -/
def cueLineStep (st : Cue × List Str) (line : Str) : Cue × List Str :=
  match timeRegMatch line with
  | some (s, e) => ({ st.1 with start? := some s, stop? := some e }, st.2)
  | none =>
    let clean := stripTags (stripStamps line)
    let c := { st.1 with lines := st.1.lines ++ [clean] }
    if ¬isBlank clean ∧ clean ∉ last4 st.2 then (c, st.2 ++ [clean])
    else (c, st.2)

/-- Python `cue.split("\n")`. -/
def splitNl : Str → List Str
  | [] => [[]]
  | '\n' :: rest => [] :: splitNl rest
  | c :: rest =>
    match splitNl rest with
    | b :: bs => (c :: b) :: bs
    | [] => [[c]]

/-- `_cue_cleaner(cue)`, returning the cue dict and the updated queue. -/
def cueCleaner (cue : Str) (queue : List Str) : Cue × List Str :=
  (splitNl cue).foldl cueLineStep ({}, queue)

/-- Python `subtitle_str.replace("\n \n", "\n")`. -/
def replaceNlSpNl : Str → Str
  | '\n' :: ' ' :: '\n' :: rest => '\n' :: replaceNlSpNl rest
  | c :: rest => c :: replaceNlSpNl rest
  | [] => []

/-- Python `s.split("\n\n")`. -/
def splitBlocks : Str → List Str
  | '\n' :: '\n' :: rest => [] :: splitBlocks rest
  | c :: rest =>
    match splitBlocks rest with
    | b :: bs => (c :: b) :: bs
    | [] => [[c]]
  | [] => [[]]

/-- Parser state after `_parse_cues`: header, `parsed_cue_list` (the cue
store) and `all_text_lines`. -/
structure SplitState where
  header : Str
  cues : List Cue
  queue : List Str
deriving DecidableEq, Repr

/-- One step of the list comprehension in `_parse_cues`: clean the next
cue block, append the cue dict, thread the shared queue. -/
def parseStep (st : List Cue × List Str) (blk : Str) : List Cue × List Str :=
  ((st.1 ++ [(cueCleaner blk st.2).1]), (cueCleaner blk st.2).2)

/-- `_parse_cues`. -/
def parseCues (raw : Str) : SplitState :=
  let allCues := splitBlocks (replaceNlSpNl raw)
  let header := allCues.headD []
  let (cues, queue) := allCues.tail.foldl parseStep ([], [])
  { header := header, cues := cues, queue := queue }

/-! ### `_match_text_lines` -/

/-- Indices of all cues in the store whose `lines` contain `check`,
in store order: `[i for i in self.parsed_cue_list if check in i["lines"]]`
(keeping indices instead of dict references). -/
def matchesOf (cues : List Cue) (check : Str) : List Nat :=
  (List.range cues.length).filter fun i => check ∈ (getCue cues i).lines

/-- One iteration body of the `while self.all_text_lines:` loop, without
the queue update: pick `matches`, raise (`.exn`) on `matches[-1]` of an
empty list (IndexError) or on a missing `matches[0]["start"]` (KeyError),
otherwise overwrite the chosen cue's `start` and return the updated
store together with the chosen index. -/
def matchStep (cues : List Cue) (check : Str) : PyRes (List Cue × Nat) :=
  match (matchesOf cues check).getLast?, (matchesOf cues check).head? with
  | some chosen, some i0 =>
    match (getCue cues i0).start? with
    | none => .exn
    | some s0 =>
      .ok (cues.set chosen { getCue cues chosen with start? := some s0 },
        chosen)
  | _, _ => .exn

/-- The `while self.all_text_lines:` loop of `_match_text_lines`, with a
fuel argument: `none` means the fuel ran out, `some .exn` an uncaught
Python exception, `some (.ok _)` normal return.  Fuel `queue.length` is
always enough (each iteration erases at least the head of the queue). -/
def matchLoopF : Nat → List Cue → List Str → List Nat →
    Option (PyRes (List Cue × List Nat))
  | _, cues, [], matched => some (.ok (cues, matched))
  | 0, _, _ :: _, _ => none
  | fuel + 1, cues, check :: rest, matched =>
    match matchStep cues check with
    | .exn => some .exn
    | .ok (cues1, chosen) =>
      let queue1 := ((getCue cues1 chosen).lines).foldl
        (fun q l => q.erase l) (check :: rest)
      matchLoopF fuel cues1 queue1 (matched ++ [chosen])

/-! ### `_add_id`, `_timestamp_check`, `get_subtitle_str` -/

/-- `_add_id`: `self.matched[idx]["id"] = idx + 1`, writing through the
shared store (`k` is the running `idx`). -/
def addIdGo (cues : List Cue) (k : Nat) : List Nat → List Cue
  | [] => cues
  | ci :: rest =>
    addIdGo (cues.set ci { getCue cues ci with id? := some (k + 1) })
      (k + 1) rest

def addId (cues : List Cue) (matched : List Nat) : List Cue :=
  addIdGo cues 0 matched

/-- `int(re.sub("[^0-9]", "", s))`: `none` embeds the `ValueError` that
`int("")` raises when `s` has no digit. -/
def tsVal (s : Str) : Option Nat :=
  let ds := s.filter Char.isDigit
  if ds.isEmpty then none
  else some (ds.foldl (fun n c => n * 10 + (c.toNat - 48)) 0)

/-- `_timestamp_check`: one forward pass over `matched`.  Reading a
missing `end`/`start` key (`re.sub` applied to `None`, a `TypeError`) or
a digitless timestamp (`int("")`, a `ValueError`) is an uncaught
exception; the `IndexError` of `self.matched[idx + 1]` on the last entry
is caught in the source and ends the pass. -/
def tsGo (cues : List Cue) : List Nat → PyRes (List Cue)
  | [] => .ok cues
  | ci :: rest =>
    match (getCue cues ci).stop? with
    | none => .exn
    | some e =>
      match tsVal e with
      | none => .exn
      | some endv =>
        match rest with
        | [] => .ok cues
        | ni :: _ =>
          match (getCue cues ni).start? with
          | none => .exn
          | some ns =>
            match tsVal ns with
            | none => .exn
            | some nsv =>
              if nsv < endv then
                tsGo (cues.set ci
                  { getCue cues ci with stop? := some ns }) rest
              else tsGo cues rest

def timestampCheck (cues : List Cue) (matched : List Nat) : PyRes (List Cue) :=
  tsGo cues matched

/-- Decimal rendering of a `Nat`, as Python `f"{n}"`; fueled so that it
reduces in the kernel (`n + 1` is always enough fuel). -/
def natDigitsF : Nat → Nat → Str
  | 0, _ => []
  | fuel + 1, n =>
    if n < 10 then [Char.ofNat (48 + n)]
    else natDigitsF fuel (n / 10) ++ [Char.ofNat (48 + n % 10)]

def natDigits (n : Nat) : Str := natDigitsF (n + 1) n

/-- Python f-string interpolation of `cue.get(...)` for a string key:
a missing key prints as `None`. -/
def renderOptStr (o : Option Str) : Str :=
  match o with
  | some s => s
  | none => ['N', 'o', 'n', 'e']

/-- Python f-string interpolation of `cue.get("id")`. -/
def renderOptNat (o : Option Nat) : Str :=
  match o with
  | some n => natDigits n
  | none => ['N', 'o', 'n', 'e']

/-- The serialized block that `get_subtitle_str` emits for one cue:
`f"{id}\n{start} --> {end}\n{joined lines}\n\n"`. -/
def cueBlock (c : Cue) : Str :=
  renderOptNat c.id? ++ '\n' :: renderOptStr c.start? ++
    (' ' :: '-' :: '-' :: '>' :: ' ' :: renderOptStr c.stop?) ++
    '\n' :: (List.intercalate ['\n'] c.lines ++ ['\n', '\n'])

/-- `get_subtitle_str`, over the dereferenced `self.matched` sequence. -/
def getSubtitleStr (header : Str) (matched : List Cue) : Str :=
  header ++ '\n' :: '\n' :: (matched.map cueBlock).flatten

/-! ### `process` -/

/-- Full parser state after `process`. -/
structure ProcState where
  header : Str
  cues : List Cue
  matched : List Nat
deriving DecidableEq, Repr

/-- The cue dicts referenced by `self.matched`, in order. -/
def derefMatched (st : ProcState) : List Cue :=
  st.matched.map fun i => getCue st.cues i

/-- `process`: `_parse_cues`; `_match_text_lines`; `_add_id`;
`_timestamp_check`.  `none` would mean `matchLoopF` ran out of fuel,
which cannot happen with fuel `queue.length`; `some .exn` an uncaught
exception. -/
def process (raw : Str) : Option (PyRes ProcState) :=
  let st := parseCues raw
  match matchLoopF st.queue.length st.cues st.queue [] with
  | none => none
  | some .exn => some .exn
  | some (.ok (cues1, matched)) =>
    let cues2 := addId cues1 matched
    match timestampCheck cues2 matched with
    | .exn => some .exn
    | .ok cues3 =>
      some (.ok { header := st.header, cues := cues3, matched := matched })

/-! ### Concrete inputs used to settle the claims -/

/-- Scenario A of the specification: header `WEBVTT`, two cues, rolling
line `Hello`, new line `World` in the second cue. -/
def scenarioA : Str :=
  ("WEBVTT\n\n00:00:01.000 --> 00:00:03.000\nHello\n\n" ++
    "00:00:02.500 --> 00:00:05.000\nHello\nWorld").data

/-- A cue block with a text line but no timestamp line. -/
def noStampInput : Str := "WEBVTT\n\nHello".data

/-- Line `XX` recurs after four other accepted lines, so the dedup
window forgets it and the aligner appends the same cue dict twice. -/
def aliasInput : Str :=
  ("WEBVTT\n\n00:00:01.000 --> 00:00:02.000\nXX\n\n" ++
    "00:00:03.000 --> 00:00:04.000\nAA\nBB\nCC\nDD\n\n" ++
    "00:00:05.000 --> 00:00:06.000\nXX").data

/-- Two cues out of chronological order, both containing `AA`. -/
def unorderedInput : Str :=
  ("WEBVTT\n\n00:00:05.000 --> 00:00:06.000\nAA\n\n" ++
    "00:00:01.000 --> 00:00:02.000\nAA\nBB").data

/-- Line `XX` appears unchanged in five consecutive cues, but four other
lines are accepted in between. -/
def windowFlushInput : Str :=
  ("WEBVTT\n\n00:00:01.000 --> 00:00:02.000\nXX\n\n" ++
    "00:00:02.000 --> 00:00:03.000\nXX\nAA\nBB\nCC\nDD\n\n" ++
    "00:00:03.000 --> 00:00:04.000\nXX\n\n" ++
    "00:00:04.000 --> 00:00:05.000\nXX\n\n" ++
    "00:00:05.000 --> 00:00:06.000\nXX").data

/-- A single already-processed matched cue, used for the round-trip
claim. -/
def rtCue : Cue :=
  { start? := some "00:00:01.000".data, stop? := some "00:00:03.000".data,
    lines := ["Hello".data], id? := some 1 }

/-- The cue store after running `_match_text_lines` on the Scenario A
input: the second cue carries the rewritten start, the queue is empty,
`matched = [1]`. -/
def scenarioAMatchedStore : List Cue :=
  [{ start? := some "00:00:01.000".data, stop? := some "00:00:03.000".data,
     lines := ["Hello".data] },
   { start? := some "00:00:01.000".data, stop? := some "00:00:05.000".data,
     lines := ["Hello".data, "World".data] }]

/-- The matched sequence of `process` if it returned normally. -/
def matchedOf (r : Option (PyRes ProcState)) : Option (List Nat) :=
  match r with
  | some (.ok st) => some st.matched
  | _ => none

/-- The id values of the matched cues in output order, read through the
store as `get_subtitle_str` and `create_bulk_import` do. -/
def outIds (r : Option (PyRes ProcState)) : Option (List (Option Nat)) :=
  match r with
  | some (.ok st) => some ((derefMatched st).map Cue.id?)
  | _ => none

/-- Skip one optional leading colon. -/
def colonOpt (s : Str) : Str := if s.head? = some ':' then s.tail else s

/-- A fixed-point millisecond fraction: a dot and exactly three digits,
ending the string. -/
def isFrac : Str → Bool
  | ['.', x, y, z] => x.isDigit && y.isDigit && z.isDigit
  | _ => false

/-- The specification-side shape of one `([0-9]{2}:?){3}\.[0-9]{3}`
timestamp: three two-digit groups, each optionally followed by a colon,
then a dot and three digits. -/
def isTimePart (t : Str) : Bool :=
  match t with
  | a :: b :: r1 =>
    a.isDigit && b.isDigit &&
      (match colonOpt r1 with
       | c :: d :: r2 =>
         c.isDigit && d.isDigit &&
           (match colonOpt r2 with
            | e :: f :: r3 =>
              e.isDigit && f.isDigit && isFrac (colonOpt r3)
            | _ => false)
       | _ => false)
  | _ => false

/-- All parsed cues whose `lines` contain `l`, in document order
(specification-side formulation of the match set `M`). -/
def cuesContaining (cues : List Cue) (l : Str) : List Cue :=
  cues.filter fun c => l ∈ c.lines

/-- Specification-side numeric reading of a cue's `start` timestamp
(digit-stripped integer, 0 when absent), used to state chronological
ordering. -/
def startNum (c : Cue) : Nat := (c.start?.bind tsVal).getD 0

/-- Queue separation invariant: two equal entries of the unique-line
queue are always at least 5 positions apart (the 4-entry dedup window
guarantees no more than that). -/
def sepOK (q : List Str) : Prop :=
  ∀ i j (hi : i < q.length) (hj : j < q.length), i < j →
    q.get ⟨i, hi⟩ = q.get ⟨j, hj⟩ → i + 5 ≤ j

/-- The full `process` output state on the Scenario A input. -/
def scenarioAProcOut : ProcState :=
  { header := "WEBVTT".data,
    cues := [{ start? := some "00:00:01.000".data,
               stop? := some "00:00:03.000".data, lines := ["Hello".data] },
             { start? := some "00:00:01.000".data,
               stop? := some "00:00:05.000".data,
               lines := ["Hello".data, "World".data], id? := some 1 }],
    matched := [1] }

/-- The optional timestamp string is present and contains at least one
digit (so that `int(re.sub("[^0-9]", "", s))` succeeds on it). -/
def hasDigits (o : Option Str) : Bool :=
  match o with
  | some s => !(s.filter Char.isDigit).isEmpty
  | none => false

/-- A cue whose both timestamps are present with digits: processing such
cues never raises. -/
def goodCue (c : Cue) : Bool := hasDigits c.start? && hasDigits c.stop?

/-- Splitter invariant: every pending queue entry is non-blank and
occurs in the lines of some stored cue. -/
def queueInv (cues : List Cue) (queue : List Str) : Prop :=
  ∀ l ∈ queue, isBlank l = false ∧
    ∃ j, j < cues.length ∧ l ∈ (getCue cues j).lines

/-- Store invariant: every cue that has a non-blank line carries both
timestamps with digits. -/
def goodStore (cues : List Cue) : Prop :=
  ∀ j, j < cues.length → (∃ l ∈ (getCue cues j).lines, isBlank l = false) →
    goodCue (getCue cues j) = true

/-- The optional timestamp is present and matches the full
`HH:MM:SS.mmm` shape accepted by the classifier. -/
def rtTs (o : Option Str) : Bool :=
  match o with
  | some s => isTimePart s
  | none => false

/-- The cue has exactly one text line, non-blank, free of newlines and
of inline markup, and not itself a timestamp-range line. -/
def rtLine (c : Cue) : Bool :=
  match c.lines with
  | [l] => !isBlank l && !(l.contains '\n') &&
      decide (stripStamps l = l) && decide (stripTags l = l) &&
      decide (timeRegMatch l = none)
  | _ => false

/-- A matched cue in the round-trip claim setting: well-formed
timestamps and one clean unique line. -/
def rtCueOK (c : Cue) : Bool := rtTs c.start? && rtTs c.stop? && rtLine c

/-- The cue component of `cueLineStep`, which does not depend on the
queue component of the state. -/
def cueFst (c : Cue) (line : Str) : Cue :=
  match timeRegMatch line with
  | some (s, e) => { c with start? := some s, stop? := some e }
  | none => { c with lines := c.lines ++ [stripTags (stripStamps line)] }

/-- The text block (between blank-line separators) that the serializer
emits for one matched cue: id line, timestamp line, text lines. -/
def rtBlock (c : Cue) : Str :=
  renderOptNat c.id? ++ '\n' :: renderOptStr c.start? ++
    (' ' :: '-' :: '-' :: '>' :: ' ' :: renderOptStr c.stop?) ++
    '\n' :: List.intercalate ['\n'] c.lines

/-- The cue dict that re-parsing the serialized block of `c` yields:
same timestamps, the rendered id prepended as an extra text line, and no
id key. -/
def rtReparsed (c : Cue) : Cue :=
  { start? := c.start?, stop? := c.stop?,
    lines := renderOptNat c.id? :: c.lines, id? := none }

/-- Normalized-output adjacency invariant: the stripped-digit integer
value of the left cue's `end` is at most that of the right cue's
`start`. -/
def okPair (a b : Cue) : Prop :=
  ∃ ev sv, a.stop?.bind tsVal = some ev ∧ b.start?.bind tsVal = some sv ∧
    ev ≤ sv

/-- A two-cue overlapping store (Scenario D shape): the first cue ends
after the second one starts. -/
def overlapStore : List Cue :=
  [{ start? := some "00:00:05.000".data, stop? := some "00:00:10.000".data,
     lines := ["AA".data], id? := some 1 },
   { start? := some "00:00:08.000".data, stop? := some "00:00:11.000".data,
     lines := ["BB".data], id? := some 2 }]

/-- `overlapStore` after `_timestamp_check` on `matched = [0, 1]`: the
first cue's `end` was pulled back to the second cue's `start`. -/
def overlapStoreOut : List Cue :=
  [{ start? := some "00:00:05.000".data, stop? := some "00:00:08.000".data,
     lines := ["AA".data], id? := some 1 },
   { start? := some "00:00:08.000".data, stop? := some "00:00:11.000".data,
     lines := ["BB".data], id? := some 2 }]

/-! ### General lemmas about the matchers -/

theorem matchGroup_length {s t r : Str} (h : matchGroup s = some (t, r)) :
    r.length < s.length := by
  unfold matchGroup at h
  match s with
  | [] => simp at h
  | [a] => simp at h
  | a :: b :: rest =>
    simp only at h
    split at h
    · split at h
      · rename_i hcol
        cases hc : rest with
        | nil => simp [hc] at hcol
        | cons c cs =>
          simp only [Option.some.injEq, Prod.mk.injEq] at h
          simp [← h.2, hc, List.length_cons]
          omega
      · simp only [Option.some.injEq, Prod.mk.injEq] at h
        simp [← h.2, List.length_cons]
        omega
    · simp at h

theorem matchTimePart_length {s t r : Str}
    (h : matchTimePart s = some (t, r)) : r.length < s.length := by
  unfold matchTimePart at h
  cases h1 : matchGroup s with
  | none => simp [h1] at h
  | some p1 =>
    obtain ⟨g1, r1⟩ := p1
    cases h2 : matchGroup r1 with
    | none => simp [h1, h2] at h
    | some p2 =>
      obtain ⟨g2, r2⟩ := p2
      cases h3 : matchGroup r2 with
      | none => simp [h1, h2, h3] at h
      | some p3 =>
        obtain ⟨g3, r3⟩ := p3
        simp only [h1, h2, h3] at h
        have l1 := matchGroup_length h1
        have l2 := matchGroup_length h2
        have l3 := matchGroup_length h3
        split at h
        · split at h
          · simp only [Option.some.injEq, Prod.mk.injEq] at h
            rw [← h.2]
            simp [List.length_cons] at l3 ⊢
            omega
          · simp at h
        · simp at h

/-! ### Store and queue lemmas -/

theorem getCue_set (l : List Cue) (i : Nat) (c : Cue) (j : Nat) :
    getCue (l.set i c) j =
      if i = j ∧ i < l.length then c else getCue l j := by
  unfold getCue
  rw [List.getD_eq_getElem?_getD, List.getD_eq_getElem?_getD, List.getElem?_set]
  by_cases hij : i = j
  · subst hij
    by_cases hi : i < l.length
    · simp [hi]
    · simp [hi, List.getElem?_eq_none (Nat.le_of_not_lt hi)]
  · simp [hij]

theorem foldl_erase_length_le (ls : List Str) (q : List Str) :
    (ls.foldl (fun q l => q.erase l) q).length ≤ q.length := by
  induction ls generalizing q with
  | nil => simp
  | cons a ls ih =>
    simp only [List.foldl_cons]
    exact le_trans (ih _) (List.erase_sublist a q).length_le

theorem foldl_erase_length_lt (ls : List Str) (q : List Str)
    (h : ∃ l ∈ ls, l ∈ q) :
    (ls.foldl (fun q l => q.erase l) q).length < q.length := by
  induction ls generalizing q with
  | nil => simp at h
  | cons a ls ih =>
    simp only [List.foldl_cons]
    by_cases ha : a ∈ q
    · have h1 : (q.erase a).length = q.length - 1 := List.length_erase_of_mem ha
      have h2 := foldl_erase_length_le ls (q.erase a)
      have h3 : 0 < q.length := List.length_pos.2 (List.ne_nil_of_mem ha)
      omega
    · rw [List.erase_of_not_mem ha]
      obtain ⟨l, hl, hlq⟩ := h
      rcases List.mem_cons.1 hl with rfl | hl'
      · exact absurd hlq ha
      · exact ih _ ⟨l, hl', hlq⟩

theorem matchesOf_mem {cues : List Cue} {check : Str} {i : Nat}
    (h : i ∈ matchesOf cues check) :
    i < cues.length ∧ check ∈ (getCue cues i).lines := by
  simp only [matchesOf, List.mem_filter, List.mem_range,
    decide_eq_true_eq] at h
  exact ⟨h.1, h.2⟩

theorem mem_of_getLast?_eq {l : List Nat} {a : Nat}
    (h : l.getLast? = some a) : a ∈ l := by
  obtain ⟨hne, rfl⟩ :=
    List.mem_getLast?_eq_getLast (show a ∈ l.getLast? by
      rw [Option.mem_def]; exact h)
  exact List.getLast_mem hne

theorem matchStep_ok {cues : List Cue} {check : Str} {cues1 : List Cue}
    {chosen : Nat} (h : matchStep cues check = .ok (cues1, chosen)) :
    chosen < cues.length ∧ check ∈ (getCue cues1 chosen).lines ∧
      cues1.length = cues.length ∧
      ∀ j, (getCue cues1 j).lines = (getCue cues j).lines ∧
        (getCue cues1 j).stop? = (getCue cues j).stop? ∧
        (getCue cues1 j).id? = (getCue cues j).id? := by
  unfold matchStep at h
  cases hlast : (matchesOf cues check).getLast? with
  | none => simp [hlast] at h
  | some chosen0 =>
    cases hhead : (matchesOf cues check).head? with
    | none => simp [hlast, hhead] at h
    | some i0 =>
      simp only [hlast, hhead] at h
      cases hs : (getCue cues i0).start? with
      | none => simp [hs] at h
      | some s0 =>
        simp only [hs, PyRes.ok.injEq, Prod.mk.injEq] at h
        obtain ⟨hc1, hch⟩ := h
        subst hch
        subst hc1
        have hmem : chosen0 ∈ matchesOf cues check :=
          mem_of_getLast?_eq hlast
        obtain ⟨hlt, hlines⟩ := matchesOf_mem hmem
        have hframe : ∀ j,
            ((getCue (cues.set chosen0
                { getCue cues chosen0 with start? := some s0 }) j).lines =
              (getCue cues j).lines) ∧
            ((getCue (cues.set chosen0
                { getCue cues chosen0 with start? := some s0 }) j).stop? =
              (getCue cues j).stop?) ∧
            ((getCue (cues.set chosen0
                { getCue cues chosen0 with start? := some s0 }) j).id? =
              (getCue cues j).id?) := by
          intro j
          rw [getCue_set]
          split
          · rename_i hcond
            rw [← hcond.1]
            exact ⟨rfl, rfl, rfl⟩
          · exact ⟨rfl, rfl, rfl⟩
        refine ⟨hlt, ?_, by rw [List.length_set], hframe⟩
        rw [(hframe chosen0).1]
        exact hlines

theorem matchLoopF_count {fuel : Nat} :
    ∀ {cues : List Cue} {queue : List Str} {matched : List Nat}
      {cues1 : List Cue} {m : List Nat},
      matchLoopF fuel cues queue matched = some (.ok (cues1, m)) →
      m.length ≤ matched.length + queue.length := by
  induction fuel with
  | zero =>
    intro cues queue matched cues1 m h
    cases queue with
    | nil =>
      simp only [matchLoopF, Option.some.injEq, PyRes.ok.injEq,
        Prod.mk.injEq] at h
      simp [← h.2]
    | cons a q => exact absurd h (by simp [matchLoopF])
  | succ fuel ih =>
    intro cues queue matched cues1 m h
    cases queue with
    | nil =>
      simp only [matchLoopF, Option.some.injEq, PyRes.ok.injEq,
        Prod.mk.injEq] at h
      simp [← h.2]
    | cons check rest =>
      rw [matchLoopF] at h
      cases hstep : matchStep cues check with
      | exn => rw [hstep] at h; exact absurd h (by simp)
      | ok p =>
        obtain ⟨cuesA, chosen⟩ := p
        rw [hstep] at h
        simp only at h
        have hrec := ih h
        have hq : (((getCue cuesA chosen).lines).foldl
            (fun q l => q.erase l) (check :: rest)).length <
            (check :: rest).length := by
          refine foldl_erase_length_lt _ _ ⟨check, ?_, List.mem_cons_self _ _⟩
          exact (matchStep_ok hstep).2.1
        simp only [List.length_append, List.length_cons,
          List.length_nil] at hrec hq ⊢
        omega

theorem matchLoopF_total {fuel : Nat} :
    ∀ {cues : List Cue} {queue : List Str} {matched : List Nat},
      queue.length ≤ fuel → (matchLoopF fuel cues queue matched).isSome := by
  induction fuel with
  | zero =>
    intro cues queue matched h
    cases queue with
    | nil => simp [matchLoopF]
    | cons a q => simp at h
  | succ fuel ih =>
    intro cues queue matched h
    cases queue with
    | nil => simp [matchLoopF]
    | cons check rest =>
      rw [matchLoopF]
      cases hstep : matchStep cues check with
      | exn => simp
      | ok p =>
        obtain ⟨cuesA, chosen⟩ := p
        simp only
        refine ih ?_
        have hq : (((getCue cuesA chosen).lines).foldl
            (fun q l => q.erase l) (check :: rest)).length <
            (check :: rest).length := by
          refine foldl_erase_length_lt _ _ ⟨check, ?_, List.mem_cons_self _ _⟩
          exact (matchStep_ok hstep).2.1
        simp only [List.length_cons] at hq h
        omega

/-! ### Counterexamples (closed evaluations of the embedded code) -/

/-- C1, counterexample: on the Scenario A input two entries are accepted
into the unique-line queue, but `_match_text_lines` produces only one
`MatchedCue` (the second cue's line set `["Hello", "World"]` consumes
both pending entries), so the output does not have 2 matched cues and
the matched count differs from the accepted-queue count. -/
theorem c1_counterexample :
    (parseCues scenarioA).queue.length = 2 ∧
      (matchedOf (process scenarioA)).map List.length = some 1 := by
  decide

/-- C2, counterexample: on input `"WEBVTT\n\nHello"` — a cue block with
a text line but no timestamp line — the pipeline raises
(`matches[0]["start"]` is a `KeyError`), instead of degrading to a
smaller valid output. -/
theorem c2_counterexample : process noStampInput = some PyRes.exn := by
  decide

/-- C3, counterexample: serializing the one-cue matched sequence
`rtCue` and re-splitting with `_parse_cues` does not reproduce a cue
with line text `["Hello"]`: the serialized id becomes an extra leading
text line `"1"`, and a trailing empty cue appears. -/
theorem c3_counterexample :
    (parseCues (getSubtitleStr "WEBVTT".data [rtCue])).cues.map Cue.lines =
        [[['1'], "Hello".data], [[]]] ∧
      [rtCue].map Cue.lines = [["Hello".data]] := by
  decide

/-- C4, counterexample: on `aliasInput` the same cue dict is appended to
`matched` twice (store indices `[2, 1, 2]`), `_add_id` then writes ids
through the shared reference, and the output id sequence is `[3, 2, 3]`,
not `1..N`. -/
theorem c4_counterexample :
    matchedOf (process aliasInput) = some [2, 1, 2] ∧
      outIds (process aliasInput) = some [some 3, some 2, some 3] := by
  decide

/-- C5, counterexample: on `unorderedInput` the (single) matched cue for
line `AA` gets `start = "00:00:05.000"`, the start of the first cue in
document order containing `AA`, although the earliest timestamp among
the cues containing `AA` is `"00:00:01.000"` (both source cues contain
`AA`). -/
theorem c5_counterexample :
    ((parseCues unorderedInput).cues.map fun c =>
        (decide ("AA".data ∈ c.lines), c.start?)) =
      [(true, some "00:00:05.000".data), (true, some "00:00:01.000".data)] ∧
      (process unorderedInput).map (fun r =>
        match r with
        | .ok st => (derefMatched st).map Cue.start?
        | .exn => []) = some [some "00:00:05.000".data] := by
  decide

/-- C7, counterexample: on `windowFlushInput` the line `XX` appears
unchanged in all five consecutive cues, yet the unique-line queue
contains `XX` twice — four other accepted lines flushed the 4-entry
dedup window. -/
theorem c7_counterexample :
    ((parseCues windowFlushInput).cues.map fun c =>
        decide ("XX".data ∈ c.lines)) = [true, true, true, true, true] ∧
      (parseCues windowFlushInput).queue.count "XX".data = 2 := by
  decide

/-- C8, counterexample: a `"<start> --> <end>"` line whose groups are
separated by `-` (a single punctuation character other than `:`) is not
accepted by the timestamp-range classifier, and `_cue_cleaner` treats it
as a text line instead of setting `start`/`end`. -/
theorem c8_counterexample :
    timeRegMatch "00-00-01.000 --> 00-00-05.000".data = none ∧
      (cueCleaner "00-00-01.000 --> 00-00-05.000\nHello".data []).1.start? =
        none := by
  decide

/-! ### `_add_id` lemmas -/

theorem addIdGo_length (cues : List Cue) (k : Nat) (m : List Nat) :
    (addIdGo cues k m).length = cues.length := by
  induction m generalizing cues k with
  | nil => rfl
  | cons ci rest ih => rw [addIdGo, ih, List.length_set]

theorem addIdGo_frame_notmem {m : List Nat} :
    ∀ {cues : List Cue} {k j : Nat}, j ∉ m →
      getCue (addIdGo cues k m) j = getCue cues j := by
  induction m with
  | nil => intro cues k j _; rfl
  | cons ci rest ih =>
    intro cues k j hj
    rw [addIdGo, ih (fun hc => hj (List.mem_cons_of_mem _ hc)), getCue_set]
    rw [if_neg]
    intro hcond
    exact hj (hcond.1 ▸ List.mem_cons_self _ _)

theorem addIdGo_start_stop (m : List Nat) :
    ∀ (cues : List Cue) (k j : Nat),
      (getCue (addIdGo cues k m) j).start? = (getCue cues j).start? ∧
        (getCue (addIdGo cues k m) j).stop? = (getCue cues j).stop? := by
  induction m with
  | nil => intro cues k j; exact ⟨rfl, rfl⟩
  | cons ci rest ih =>
    intro cues k j
    rw [addIdGo]
    refine ⟨?_, ?_⟩
    · rw [(ih _ _ j).1, getCue_set]
      by_cases hcond : ci = j ∧ ci < cues.length
      · rw [if_pos hcond, ← hcond.1]
      · rw [if_neg hcond]
    · rw [(ih _ _ j).2, getCue_set]
      by_cases hcond : ci = j ∧ ci < cues.length
      · rw [if_pos hcond, ← hcond.1]
      · rw [if_neg hcond]

theorem addIdGo_ids {m : List Nat} :
    ∀ {cues : List Cue} {k : Nat}, m.Nodup → (∀ i ∈ m, i < cues.length) →
      (m.map fun i => (getCue (addIdGo cues k m) i).id?) =
        (List.range m.length).map fun j => some (k + j + 1) := by
  induction m with
  | nil => intro cues k _ _; rfl
  | cons ci rest ih =>
    intro cues k hnd hlt
    have hci : ci < cues.length := hlt ci (List.mem_cons_self _ _)
    have hnotmem : ci ∉ rest := (List.nodup_cons.1 hnd).1
    rw [addIdGo, List.map_cons]
    have hhead : (getCue (addIdGo
        (cues.set ci { getCue cues ci with id? := some (k + 1) })
        (k + 1) rest) ci).id? = some (k + 1) := by
      rw [addIdGo_frame_notmem hnotmem, getCue_set, if_pos ⟨rfl, hci⟩]
    rw [hhead]
    have htail := @ih (cues.set ci { getCue cues ci with id? := some (k + 1) })
      (k + 1) (List.nodup_cons.1 hnd).2
      (fun i hi => by
        rw [List.length_set]
        exact hlt i (List.mem_cons_of_mem _ hi))
    rw [htail, List.length_cons, List.range_succ_eq_map, List.map_cons,
      List.map_map]
    refine congrArg (some (k + 1) :: ·) (List.map_congr_left fun j _ => ?_)
    simp only [Function.comp_apply, Nat.succ_eq_add_one]
    exact congrArg some (by omega)

/-! ### store-length and index bounds through the matching loop -/

theorem matchLoopF_bounds {fuel : Nat} :
    ∀ {cues : List Cue} {queue : List Str} {matched : List Nat}
      {cues1 : List Cue} {m : List Nat},
      matchLoopF fuel cues queue matched = some (.ok (cues1, m)) →
      (∀ i ∈ matched, i < cues.length) →
      (∀ i ∈ m, i < cues1.length) ∧ cues1.length = cues.length := by
  induction fuel with
  | zero =>
    intro cues queue matched cues1 m h hb
    cases queue with
    | nil =>
      simp only [matchLoopF, Option.some.injEq, PyRes.ok.injEq,
        Prod.mk.injEq] at h
      rw [← h.1, ← h.2]
      exact ⟨hb, rfl⟩
    | cons a q => exact absurd h (by simp [matchLoopF])
  | succ fuel ih =>
    intro cues queue matched cues1 m h hb
    cases queue with
    | nil =>
      simp only [matchLoopF, Option.some.injEq, PyRes.ok.injEq,
        Prod.mk.injEq] at h
      rw [← h.1, ← h.2]
      exact ⟨hb, rfl⟩
    | cons check rest =>
      rw [matchLoopF] at h
      cases hstep : matchStep cues check with
      | exn => rw [hstep] at h; exact absurd h (by simp)
      | ok p =>
        obtain ⟨cuesA, chosen⟩ := p
        rw [hstep] at h
        simp only at h
        obtain ⟨hlt, _, hlen, _⟩ := matchStep_ok hstep
        have hb' : ∀ i ∈ matched ++ [chosen], i < cuesA.length := by
          intro i hi
          rcases List.mem_append.1 hi with hi | hi
          · rw [hlen]; exact hb i hi
          · rw [List.mem_singleton.1 hi, hlen]; exact hlt
        obtain ⟨h1, h2⟩ := ih h hb'
        exact ⟨h1, by rw [h2, hlen]⟩

/-! ### `_timestamp_check` lemmas -/

theorem getCue_oob {cues : List Cue} {i : Nat} (h : cues.length ≤ i) :
    getCue cues i = default := by
  unfold getCue
  rw [List.getD_eq_getElem?_getD, List.getElem?_eq_none h]
  rfl

theorem tsGo_frame {l : List Nat} :
    ∀ {cues cues1 : List Cue}, tsGo cues l = .ok cues1 →
      cues1.length = cues.length ∧
      ∀ j, (getCue cues1 j).start? = (getCue cues j).start? ∧
        (getCue cues1 j).lines = (getCue cues j).lines ∧
        (getCue cues1 j).id? = (getCue cues j).id? := by
  induction l with
  | nil =>
    intro cues cues1 h
    obtain rfl : cues = cues1 := by simpa [tsGo] using h
    exact ⟨rfl, fun j => ⟨rfl, rfl, rfl⟩⟩
  | cons ci rest ih =>
    intro cues cues1 h
    rw [tsGo] at h
    cases hstop : (getCue cues ci).stop? with
    | none => simp [hstop] at h
    | some e =>
      simp only [hstop] at h
      cases hev : tsVal e with
      | none => simp [hev] at h
      | some endv =>
        simp only [hev] at h
        cases rest with
        | nil =>
          obtain rfl : cues = cues1 := by simpa using h
          exact ⟨rfl, fun j => ⟨rfl, rfl, rfl⟩⟩
        | cons ni rest' =>
          cases hstart : (getCue cues ni).start? with
          | none => simp [hstart] at h
          | some ns =>
            simp only [hstart] at h
            cases hnv : tsVal ns with
            | none => simp [hnv] at h
            | some nsv =>
              simp only [hnv] at h
              split at h
              · obtain ⟨hlen, hfr⟩ := ih h
                have hci : ci < cues.length := by
                  by_contra hc
                  rw [getCue_oob (Nat.le_of_not_lt hc)] at hstop
                  exact absurd hstop (by simp [default])
                refine ⟨by rw [hlen, List.length_set], fun j => ?_⟩
                obtain ⟨h1, h2, h3⟩ := hfr j
                rw [h1, h2, h3, getCue_set]
                split
                · rename_i hcond
                  rw [← hcond.1]
                  exact ⟨rfl, rfl, rfl⟩
                · exact ⟨rfl, rfl, rfl⟩
              · exact ih h

theorem tsGo_stop_le {l : List Nat} :
    ∀ {cues cues1 : List Cue}, tsGo cues l = .ok cues1 →
      ∀ j v, (getCue cues j).stop?.bind tsVal = some v →
        ∃ v1, (getCue cues1 j).stop?.bind tsVal = some v1 ∧ v1 ≤ v := by
  induction l with
  | nil =>
    intro cues cues1 h j v hv
    obtain rfl : cues = cues1 := by simpa [tsGo] using h
    exact ⟨v, hv, le_rfl⟩
  | cons ci rest ih =>
    intro cues cues1 h j v hv
    rw [tsGo] at h
    cases hstop : (getCue cues ci).stop? with
    | none => simp [hstop] at h
    | some e =>
      simp only [hstop] at h
      cases hev : tsVal e with
      | none => simp [hev] at h
      | some endv =>
        simp only [hev] at h
        cases rest with
        | nil =>
          obtain rfl : cues = cues1 := by simpa using h
          exact ⟨v, hv, le_rfl⟩
        | cons ni rest' =>
          cases hstart : (getCue cues ni).start? with
          | none => simp [hstart] at h
          | some ns =>
            simp only [hstart] at h
            cases hnv : tsVal ns with
            | none => simp [hnv] at h
            | some nsv =>
              simp only [hnv] at h
              split at h
              · rename_i hlt
                have hci : ci < cues.length := by
                  by_contra hc
                  rw [getCue_oob (Nat.le_of_not_lt hc)] at hstop
                  exact absurd hstop (by simp [default])
                by_cases hj : ci = j
                · subst hj
                  simp only [hstop, Option.some_bind] at hv
                  rw [hev] at hv
                  obtain rfl : endv = v := Option.some.inj hv
                  have hset : (getCue (cues.set ci
                      { getCue cues ci with stop? := some ns }) ci).stop?.bind
                        tsVal = some nsv := by
                    rw [getCue_set]
                    simp [hci, hnv]
                  obtain ⟨v1, hv1, hle⟩ := ih h ci nsv hset
                  exact ⟨v1, hv1, le_trans hle (Nat.le_of_lt hlt)⟩
                · have hset : (getCue (cues.set ci
                      { getCue cues ci with stop? := some ns }) j).stop?.bind
                        tsVal = some v := by
                    rw [getCue_set]
                    simp only [hj, false_and, if_false]
                    exact hv
                  exact ih h j v hset
              · exact ih h j v hv

/-! ### `_timestamp_check` lemma infrastructure used by C6 -/

theorem tsGo_chain {l : List Nat} :
    ∀ {cues cues1 : List Cue}, tsGo cues l = .ok cues1 →
      List.Chain' okPair (l.map fun i => getCue cues1 i) := by
  induction l with
  | nil => intro cues cues1 _; simp
  | cons ci rest ih =>
    intro cues cues1 h
    rw [tsGo] at h
    cases hstop : (getCue cues ci).stop? with
    | none => simp [hstop] at h
    | some e =>
      simp only [hstop] at h
      cases hev : tsVal e with
      | none => simp [hev] at h
      | some endv =>
        simp only [hev] at h
        cases rest with
        | nil => simp
        | cons ni rest' =>
          cases hstart : (getCue cues ni).start? with
          | none => simp [hstart] at h
          | some ns =>
            simp only [hstart] at h
            cases hnv : tsVal ns with
            | none => simp [hnv] at h
            | some nsv =>
              simp only [hnv] at h
              split at h
              · rename_i hlt
                have hci : ci < cues.length := by
                  by_contra hc
                  rw [getCue_oob (Nat.le_of_not_lt hc)] at hstop
                  exact absurd hstop (by simp [default])
                have htail := ih h
                have hset : (getCue (cues.set ci
                    { getCue cues ci with stop? := some ns }) ci).stop?.bind
                      tsVal = some nsv := by
                  rw [getCue_set]
                  simp [hci, hnv]
                obtain ⟨v1, hv1, hle⟩ := tsGo_stop_le h ci nsv hset
                have hstart1 : (getCue cues1 ni).start? = some ns := by
                  rw [((tsGo_frame h).2 ni).1, getCue_set]
                  split
                  · rename_i hcond
                    rw [show ni = ci from hcond.1.symm] at hstart
                    exact hstart
                  · exact hstart
                rw [List.map_cons, List.map_cons, List.chain'_cons]
                refine ⟨⟨v1, nsv, hv1, ?_, hle⟩, by simpa using htail⟩
                rw [hstart1]
                simpa using hnv
              · rename_i hge
                have htail := ih h
                have hpre : (getCue cues ci).stop?.bind tsVal = some endv := by
                  rw [hstop]; simpa using hev
                obtain ⟨v1, hv1, hle⟩ := tsGo_stop_le h ci endv hpre
                have hstart1 : (getCue cues1 ni).start? = some ns := by
                  rw [((tsGo_frame h).2 ni).1]
                  exact hstart
                rw [List.map_cons, List.map_cons, List.chain'_cons]
                refine ⟨⟨v1, nsv, hv1, ?_, ?_⟩, by simpa using htail⟩
                · rw [hstart1]
                  simpa using hnv
                · omega

/-! ### C8 infrastructure: exact matching of well-shaped timestamps -/

theorem digit_ne_colon {c : Char} (h : c.isDigit = true) : c ≠ ':' := by
  intro hc
  rw [hc] at h
  exact absurd h (by decide)

theorem matchGroup_cc {a b : Char} (ha : a.isDigit = true)
    (hb : b.isDigit = true) (r : Str) :
    matchGroup (a :: b :: ':' :: r) = some ([a, b, ':'], r) := by
  simp [matchGroup, ha, hb]

theorem matchGroup_nc {a b c : Char} (ha : a.isDigit = true)
    (hb : b.isDigit = true) (hc : c ≠ ':') (r : Str) :
    matchGroup (a :: b :: c :: r) = some ([a, b], c :: r) := by
  simp [matchGroup, ha, hb, hc]

theorem matchGroup_two {a b : Char} (ha : a.isDigit = true)
    (hb : b.isDigit = true) :
    matchGroup [a, b] = some ([a, b], []) := by
  simp [matchGroup, ha, hb]

theorem matchGroup_opt {a b : Char} {r : Str} (ha : a.isDigit = true)
    (hb : b.isDigit = true) :
    matchGroup (a :: b :: r) =
      some ((if r.head? = some ':' then [a, b, ':'] else [a, b]),
        colonOpt r) := by
  unfold matchGroup colonOpt
  by_cases hc : r.head? = some ':' <;> simp [ha, hb, hc]

theorem consumedApp {a b : Char} {r : Str} :
    (if r.head? = some ':' then [a, b, ':'] else [a, b]) ++ colonOpt r =
      a :: b :: r := by
  by_cases hc : r.head? = some ':'
  · rw [if_pos hc]
    obtain ⟨rtl, rfl⟩ : ∃ rtl, r = ':' :: rtl :=
      ⟨r.tail, (List.cons_head?_tail
        (show ':' ∈ r.head? by rw [Option.mem_def]; exact hc)).symm⟩
    simp [colonOpt]
  · rw [if_neg hc]
    simp [colonOpt, hc]

theorem colonOpt_append {tl : Str} (h : tl ≠ []) (r : Str) :
    colonOpt (tl ++ r) = colonOpt tl ++ r := by
  cases tl with
  | nil => exact absurd rfl h
  | cons w tl2 =>
    unfold colonOpt
    by_cases hw : w = ':'
    · subst hw
      simp
    · simp [hw]

theorem matchGroup_append {s g rest : Str}
    (h : matchGroup s = some (g, rest)) (hne : rest ≠ []) (r : Str) :
    matchGroup (s ++ r) = some (g, rest ++ r) := by
  match s with
  | [] => simp [matchGroup] at h
  | [a] => simp [matchGroup] at h
  | a :: b :: tl =>
    cases hd : a.isDigit && b.isDigit with
    | false => simp [matchGroup, hd] at h
    | true =>
      rw [Bool.and_eq_true] at hd
      rw [matchGroup_opt hd.1 hd.2] at h
      simp only [Option.some.injEq, Prod.mk.injEq] at h
      obtain ⟨hg, hrest⟩ := h
      cases tl with
      | nil =>
        rw [← hrest] at hne
        exact absurd (show colonOpt ([] : Str) = [] by simp [colonOpt]) hne
      | cons w tl2 =>
        have happ : (a :: b :: (w :: tl2)) ++ r = a :: b :: (w :: tl2 ++ r) :=
          rfl
        rw [happ, matchGroup_opt hd.1 hd.2]
        rw [colonOpt_append (List.cons_ne_nil w tl2) r, ← hrest, ← hg]
        simp

theorem matchGroup_ne_nil {s g rest : Str}
    (h : matchGroup s = some (g, rest)) : s ≠ [] := by
  intro hs
  rw [hs] at h
  simp [matchGroup] at h

theorem matchTimePart_append {t : Str}
    (h : matchTimePart t = some (t, [])) (r : Str) :
    matchTimePart (t ++ r) = some (t, r) := by
  unfold matchTimePart at h ⊢
  cases h1 : matchGroup t with
  | none => simp [h1] at h
  | some p1 =>
    obtain ⟨g1, r1⟩ := p1
    simp only [h1] at h
    cases h2 : matchGroup r1 with
    | none => simp [h2] at h
    | some p2 =>
      obtain ⟨g2, r2⟩ := p2
      simp only [h2] at h
      cases h3 : matchGroup r2 with
      | none => simp [h3] at h
      | some p3 =>
        obtain ⟨g3, r3⟩ := p3
        simp only [h3] at h
        split at h
        · rename_i x y z r4
          split at h
          · rename_i hdig
            simp only [Option.some.injEq, Prod.mk.injEq] at h
            have hr4 : r4 = [] := h.2
            have hr1ne : r1 ≠ [] := matchGroup_ne_nil h2
            have hr2ne : r2 ≠ [] := matchGroup_ne_nil h3
            rw [matchGroup_append h1 hr1ne r]
            simp only
            rw [matchGroup_append h2 hr2ne r]
            simp only
            rw [matchGroup_append h3 (by simp) r]
            simp only [List.cons_append]
            rw [hr4]
            simp only [List.nil_append]
            rw [if_pos hdig, h.1]
          · simp at h
        · simp at h

theorem isFrac_spec {s : Str} (h : isFrac s = true) :
    ∃ x y z, s = ['.', x, y, z] ∧ x.isDigit = true ∧ y.isDigit = true ∧
      z.isDigit = true := by
  unfold isFrac at h
  split at h
  · rename_i x y z
    simp only [Bool.and_eq_true] at h
    exact ⟨x, y, z, rfl, h.1.1, h.1.2, h.2⟩
  · simp at h

theorem isTimePart_spec {t : Str} (h : isTimePart t = true) :
    matchTimePart t = some (t, []) := by
  cases t with
  | nil => simp [isTimePart] at h
  | cons a t1 =>
    cases t1 with
    | nil => simp [isTimePart] at h
    | cons b r1 =>
      rw [isTimePart] at h
      simp only [Bool.and_eq_true] at h
      obtain ⟨⟨ha, hb⟩, h⟩ := h
      cases hr1 : colonOpt r1 with
      | nil => rw [hr1] at h; simp at h
      | cons c t2 =>
        cases t2 with
        | nil => rw [hr1] at h; simp at h
        | cons d r2 =>
          rw [hr1] at h
          simp only [Bool.and_eq_true] at h
          obtain ⟨⟨hc, hd⟩, h⟩ := h
          cases hr2 : colonOpt r2 with
          | nil => rw [hr2] at h; simp at h
          | cons e t3 =>
            cases t3 with
            | nil => rw [hr2] at h; simp at h
            | cons f r3 =>
              rw [hr2] at h
              simp only [Bool.and_eq_true] at h
              obtain ⟨⟨he, hf⟩, h⟩ := h
              obtain ⟨x, y, z, hfr, hx, hy, hz⟩ := isFrac_spec h
              have e1 := consumedApp (a := a) (b := b) (r := r1)
              have e2 := consumedApp (a := c) (b := d) (r := r2)
              have e3 := consumedApp (a := e) (b := f) (r := r3)
              rw [hfr] at e3
              rw [hr2] at e2
              rw [hr1] at e1
              unfold matchTimePart
              rw [matchGroup_opt ha hb]
              simp only
              rw [hr1, matchGroup_opt hc hd]
              simp only
              rw [hr2, matchGroup_opt he hf]
              simp only
              rw [hfr]
              simp only [hx, hy, hz, Bool.and_self, if_true]
              refine congrArg (fun u => some (u, ([] : Str))) ?_
              rw [List.append_assoc, List.append_assoc]
              have hfrac : ('.' :: [x, y, z] : Str) = ['.', x, y, z] := rfl
              rw [hfrac, e3, e2, e1]

/-! ### C2 infrastructure: the pipeline cannot raise on good cues -/

theorem hasDigits_tsVal {s : Str}
    (h : hasDigits (some s) = true) : ∃ v, tsVal s = some v := by
  unfold hasDigits at h
  unfold tsVal
  simp only [Bool.not_eq_true', Bool.not_eq_false] at h
  rw [if_neg (by simp [h])]
  exact ⟨_, rfl⟩

theorem foldl_lines_mono (lines : List Str) :
    ∀ (st : Cue × List Str) (l : Str), l ∈ st.1.lines →
      l ∈ (lines.foldl cueLineStep st).1.lines := by
  induction lines with
  | nil => intro st l h; exact h
  | cons x rest ih =>
    intro st l h
    refine ih _ _ ?_
    unfold cueLineStep
    cases timeRegMatch x with
    | some p => exact h
    | none =>
      simp only
      split
      · exact List.mem_append_left _ h
      · exact List.mem_append_left _ h

theorem foldl_queue_src (lines : List Str) :
    ∀ (st : Cue × List Str) (l : Str), l ∈ (lines.foldl cueLineStep st).2 →
      l ∈ st.2 ∨ (isBlank l = false ∧
        l ∈ (lines.foldl cueLineStep st).1.lines) := by
  induction lines with
  | nil => intro st l h; exact Or.inl h
  | cons x rest ih =>
    intro st l h
    rcases ih _ _ h with hold | hnew
    · unfold cueLineStep at hold
      cases htr : timeRegMatch x with
      | some p => rw [htr] at hold; exact Or.inl hold
      | none =>
        rw [htr] at hold
        simp only at hold
        split at hold
        · rename_i hcond
          rcases List.mem_append.1 hold with hq | hx
          · exact Or.inl hq
          · refine Or.inr ⟨?_, ?_⟩
            · rw [List.mem_singleton.1 hx]
              exact Bool.of_not_eq_true (by simpa using hcond.1)
            · rw [List.mem_singleton.1 hx]
              refine foldl_lines_mono rest _ _ ?_
              unfold cueLineStep
              rw [htr]
              simp only
              split
              · exact List.mem_append_right _ (List.mem_singleton_self _)
              · exact List.mem_append_right _ (List.mem_singleton_self _)
        · exact Or.inl hold
    · exact Or.inr hnew

theorem cueCleaner_queue_src (blk : Str) (q : List Str) (l : Str)
    (h : l ∈ (cueCleaner blk q).2) :
    l ∈ q ∨ (isBlank l = false ∧ l ∈ (cueCleaner blk q).1.lines) :=
  foldl_queue_src _ _ _ h

theorem getCue_append_lt {cues : List Cue} {c : Cue} {j : Nat}
    (h : j < cues.length) : getCue (cues ++ [c]) j = getCue cues j := by
  unfold getCue
  rw [List.getD_eq_getElem?_getD, List.getD_eq_getElem?_getD,
    List.getElem?_append, if_pos h]

theorem getCue_append_last (cues : List Cue) (c : Cue) :
    getCue (cues ++ [c]) cues.length = c := by
  unfold getCue
  rw [List.getD_eq_getElem?_getD, List.getElem?_append_right le_rfl]
  simp

theorem foldl_parseStep_inv (blocks : List Str) :
    ∀ st : List Cue × List Str, queueInv st.1 st.2 →
      queueInv (blocks.foldl parseStep st).1 (blocks.foldl parseStep st).2 := by
  induction blocks with
  | nil => intro st h; exact h
  | cons b rest ih =>
    intro st h
    refine ih _ ?_
    intro l hl
    rcases cueCleaner_queue_src b st.2 l hl with hold | hnew
    · obtain ⟨hb, j, hj, hmem⟩ := h l hold
      refine ⟨hb, j, ?_, ?_⟩
      · simp only [parseStep, List.length_append, List.length_cons]
        omega
      · simpa [parseStep, getCue_append_lt hj] using hmem
    · refine ⟨hnew.1, st.1.length, ?_, ?_⟩
      · simp [parseStep]
      · simpa [parseStep, getCue_append_last] using hnew.2

theorem parseCues_queueInv (raw : Str) :
    queueInv (parseCues raw).cues (parseCues raw).queue := by
  have h := foldl_parseStep_inv
    (splitBlocks (replaceNlSpNl raw)).tail ([], [])
    (by intro l hl; simp at hl)
  exact h

theorem getCue_mem {cues : List Cue} {j : Nat} (h : j < cues.length) :
    getCue cues j ∈ cues := by
  unfold getCue
  rw [List.getD_eq_getElem?_getD, List.getElem?_eq_getElem h]
  simpa using List.getElem_mem h

theorem foldl_erase_sublist (ls : List Str) (q : List Str) :
    (ls.foldl (fun q l => q.erase l) q).Sublist q := by
  induction ls generalizing q with
  | nil => exact List.Sublist.refl q
  | cons a ls ih =>
    simp only [List.foldl_cons]
    exact (ih (q.erase a)).trans (List.erase_sublist a q)

theorem matchStep_start {cues : List Cue} {check : Str} {cues1 : List Cue}
    {chosen : Nat} (h : matchStep cues check = .ok (cues1, chosen)) :
    ∃ i0, (matchesOf cues check).head? = some i0 ∧
      (getCue cues1 chosen).start? = (getCue cues i0).start? ∧
      ∀ j, j ≠ chosen → (getCue cues1 j).start? = (getCue cues j).start? := by
  unfold matchStep at h
  cases hlast : (matchesOf cues check).getLast? with
  | none => simp [hlast] at h
  | some chosen0 =>
    cases hhead : (matchesOf cues check).head? with
    | none => simp [hlast, hhead] at h
    | some i0 =>
      simp only [hlast, hhead] at h
      cases hs : (getCue cues i0).start? with
      | none => simp [hs] at h
      | some s0 =>
        simp only [hs, PyRes.ok.injEq, Prod.mk.injEq] at h
        obtain ⟨hc1, hch⟩ := h
        subst hch
        subst hc1
        have hlt : chosen0 < cues.length :=
          (matchesOf_mem (mem_of_getLast?_eq hlast)).1
        refine ⟨i0, rfl, ?_, ?_⟩
        · rw [getCue_set, if_pos ⟨rfl, hlt⟩, hs]
        · intro j hj
          rw [getCue_set, if_neg (fun hcond => hj hcond.1.symm)]

theorem matchStep_isOk {cues : List Cue} {check : Str}
    (hne : matchesOf cues check ≠ [])
    (hstart : ∀ i0, (matchesOf cues check).head? = some i0 →
      ((getCue cues i0).start?).isSome) :
    ∃ cues1 chosen, matchStep cues check = .ok (cues1, chosen) := by
  unfold matchStep
  cases hlast : (matchesOf cues check).getLast? with
  | none => exact absurd (List.getLast?_eq_none_iff.1 hlast) hne
  | some chosen0 =>
    cases hhead : (matchesOf cues check).head? with
    | none => exact absurd (List.head?_eq_none_iff.1 hhead) hne
    | some i0 =>
      have hsome := hstart i0 hhead
      cases hs : (getCue cues i0).start? with
      | none => rw [hs] at hsome; simp at hsome
      | some s0 =>
        refine ⟨cues.set chosen0
          { getCue cues chosen0 with start? := some s0 }, chosen0, ?_⟩
        simp [hs]

theorem matchLoopF_graceful {fuel : Nat} :
    ∀ {cues : List Cue} {queue : List Str} {matched : List Nat},
      queue.length ≤ fuel → queueInv cues queue → goodStore cues →
      (∀ i ∈ matched, i < cues.length ∧ goodCue (getCue cues i) = true) →
      ∃ cues1 m, matchLoopF fuel cues queue matched = some (.ok (cues1, m)) ∧
        ∀ i ∈ m, i < cues1.length ∧ goodCue (getCue cues1 i) = true := by
  induction fuel with
  | zero =>
    intro cues queue matched hf _ _ hm
    cases queue with
    | nil => exact ⟨cues, matched, rfl, hm⟩
    | cons a q => simp at hf
  | succ fuel ih =>
    intro cues queue matched hf hq hg hm
    cases queue with
    | nil => exact ⟨cues, matched, rfl, hm⟩
    | cons check rest =>
      obtain ⟨hbl, j0, hj0, hmem0⟩ := hq check (List.mem_cons_self _ _)
      have hne : matchesOf cues check ≠ [] := by
        intro hemp
        have hj : j0 ∈ matchesOf cues check := by
          simp only [matchesOf, List.mem_filter, List.mem_range,
            decide_eq_true_eq]
          exact ⟨hj0, hmem0⟩
        rw [hemp] at hj
        simp at hj
      have hstart : ∀ i0, (matchesOf cues check).head? = some i0 →
          ((getCue cues i0).start?).isSome := by
        intro i0 hh
        have hi0 := matchesOf_mem
          (List.mem_of_mem_head? (show i0 ∈ (matchesOf cues check).head? by
            rw [Option.mem_def]; exact hh))
        have hgood := hg i0 hi0.1 ⟨check, hi0.2, hbl⟩
        unfold goodCue at hgood
        rw [Bool.and_eq_true] at hgood
        cases hcs : (getCue cues i0).start? with
        | none => rw [hcs] at hgood; exact absurd hgood.1 (by simp [hasDigits])
        | some s => simp
      obtain ⟨cuesA, chosen, hstep⟩ := matchStep_isOk hne hstart
      obtain ⟨hclt, hcheckmem, hlen, hframe⟩ := matchStep_ok hstep
      obtain ⟨i0, hhead, hst0, hstoth⟩ := matchStep_start hstep
      have hi0' := matchesOf_mem
        (List.mem_of_mem_head? (show i0 ∈ (matchesOf cues check).head? by
          rw [Option.mem_def]; exact hhead))
      have hgood_i0 := hg i0 hi0'.1 ⟨check, hi0'.2, hbl⟩
      unfold goodCue at hgood_i0
      rw [Bool.and_eq_true] at hgood_i0
      have hpres : ∀ i, i < cues.length → goodCue (getCue cues i) = true →
          goodCue (getCue cuesA i) = true := by
        intro i _ hgi
        unfold goodCue at hgi ⊢
        rw [Bool.and_eq_true] at hgi ⊢
        refine ⟨?_, by rw [(hframe i).2.1]; exact hgi.2⟩
        by_cases hj : i = chosen
        · subst hj
          rw [hst0]
          exact hgood_i0.1
        · rw [hstoth i hj]
          exact hgi.1
      have hgA : goodStore cuesA := by
        intro j hjA hex
        have hjc : j < cues.length := by rw [← hlen]; exact hjA
        refine hpres j hjc (hg j hjc ?_)
        obtain ⟨l, hl1, hl2⟩ := hex
        exact ⟨l, by rw [← (hframe j).1]; exact hl1, hl2⟩
      have hqA : queueInv cuesA
          (((getCue cuesA chosen).lines).foldl (fun q l => q.erase l)
            (check :: rest)) := by
        intro l hl
        have hl' : l ∈ check :: rest :=
          (foldl_erase_sublist _ _).mem hl
        obtain ⟨hb, j, hj, hmem⟩ := hq l hl'
        exact ⟨hb, j, by rw [hlen]; exact hj,
          by rw [(hframe j).1]; exact hmem⟩
      have hgood_chosen : goodCue (getCue cuesA chosen) = true := by
        refine hpres chosen hclt (hg chosen hclt ?_)
        exact ⟨check, by rw [← (hframe chosen).1]; exact hcheckmem, hbl⟩
      have hmA : ∀ i ∈ matched ++ [chosen],
          i < cuesA.length ∧ goodCue (getCue cuesA i) = true := by
        intro i hi
        rcases List.mem_append.1 hi with hi | hi
        · obtain ⟨hb1, hb2⟩ := hm i hi
          exact ⟨by rw [hlen]; exact hb1, hpres i hb1 hb2⟩
        · rw [List.mem_singleton.1 hi]
          exact ⟨by rw [hlen]; exact hclt, hgood_chosen⟩
      have hql : (((getCue cuesA chosen).lines).foldl (fun q l => q.erase l)
          (check :: rest)).length < (check :: rest).length :=
        foldl_erase_length_lt _ _ ⟨check, hcheckmem, List.mem_cons_self _ _⟩
      obtain ⟨cues1, m, hrec, hminv⟩ := ih
        (by simp only [List.length_cons] at hf hql ⊢; omega) hqA hgA hmA
      refine ⟨cues1, m, ?_, hminv⟩
      rw [matchLoopF, hstep]
      exact hrec

theorem tsGo_ok {l : List Nat} :
    ∀ {cues : List Cue},
      (∀ i ∈ l, i < cues.length ∧ goodCue (getCue cues i) = true) →
      ∃ cues1, tsGo cues l = .ok cues1 := by
  induction l with
  | nil => intro cues _; exact ⟨cues, rfl⟩
  | cons ci rest ih =>
    intro cues hm
    obtain ⟨hci, hgood⟩ := hm ci (List.mem_cons_self _ _)
    unfold goodCue at hgood
    rw [Bool.and_eq_true] at hgood
    cases hstop : (getCue cues ci).stop? with
    | none => rw [hstop] at hgood; exact absurd hgood.2 (by simp [hasDigits])
    | some e =>
      rw [hstop] at hgood
      obtain ⟨endv, hev⟩ := hasDigits_tsVal hgood.2
      cases rest with
      | nil =>
        refine ⟨cues, ?_⟩
        rw [tsGo, hstop]
        simp only [hev]
      | cons ni rest2 =>
        obtain ⟨hni, hgoodni⟩ := hm ni
          (List.mem_cons_of_mem _ (List.mem_cons_self _ _))
        unfold goodCue at hgoodni
        rw [Bool.and_eq_true] at hgoodni
        cases hstart : (getCue cues ni).start? with
        | none =>
          rw [hstart] at hgoodni
          exact absurd hgoodni.1 (by simp [hasDigits])
        | some ns =>
          rw [hstart] at hgoodni
          obtain ⟨nsv, hnv⟩ := hasDigits_tsVal hgoodni.1
          by_cases hlt : nsv < endv
          · have hmnew : ∀ i ∈ ni :: rest2,
                i < (cues.set ci
                  { getCue cues ci with stop? := some ns }).length ∧
                goodCue (getCue (cues.set ci
                  { getCue cues ci with stop? := some ns }) i) = true := by
              intro i hi
              obtain ⟨hb1, hb2⟩ := hm i (List.mem_cons_of_mem _ hi)
              refine ⟨by rw [List.length_set]; exact hb1, ?_⟩
              rw [getCue_set]
              split
              · unfold goodCue
                rw [Bool.and_eq_true]
                exact ⟨hgood.1, hgoodni.1⟩
              · exact hb2
            obtain ⟨cues1, hrec⟩ := ih hmnew
            refine ⟨cues1, ?_⟩
            rw [tsGo, hstop]
            simp only [hev, hstart, hnv]
            rw [if_pos hlt]
            exact hrec
          · obtain ⟨cues1, hrec⟩ := ih (fun i hi =>
              hm i (List.mem_cons_of_mem _ hi))
            refine ⟨cues1, ?_⟩
            rw [tsGo, hstop]
            simp only [hev, hstart, hnv]
            rw [if_neg hlt]
            exact hrec

/-! ### Claim theorems -/

/-- C1, amended: for every splitter state, the number of `MatchedCue`s
produced by the aligner loop is at most the number of entries in the
unique-line queue (each iteration consumes at least the head entry, and
possibly more). -/
theorem c1_amended (cues : List Cue) (queue : List Str) (cues1 : List Cue)
    (m : List Nat)
    (h : matchLoopF queue.length cues queue [] = some (.ok (cues1, m))) :
    m.length ≤ queue.length := by
  simpa using matchLoopF_count h

theorem c1_witness :
    matchLoopF (parseCues scenarioA).queue.length (parseCues scenarioA).cues
        (parseCues scenarioA).queue [] =
      some (.ok (scenarioAMatchedStore, [1])) ∧
      ([1] : List Nat).length ≤ (parseCues scenarioA).queue.length :=
  ⟨by decide, c1_amended (parseCues scenarioA).cues (parseCues scenarioA).queue
    scenarioAMatchedStore [1] (by decide)⟩

/-- C9: for every cue list and unique-line queue produced by the
splitter (every queue entry occurs in the lines of at least one parsed
cue), the matching loop of `_match_text_lines` terminates: fuel equal to
the queue length is always enough, because each iteration erases at
least the head entry of the queue. -/
theorem c9_terminates (cues : List Cue) (queue : List Str)
    (h : ∀ l ∈ queue, ∃ c ∈ cues, l ∈ c.lines) :
    (matchLoopF queue.length cues queue []).isSome :=
  matchLoopF_total le_rfl

theorem c9_witness :
    (matchLoopF (parseCues scenarioA).queue.length (parseCues scenarioA).cues
      (parseCues scenarioA).queue []).isSome :=
  c9_terminates _ _ (by decide)

/-- C6: after the single forward pass of `_timestamp_check` over any
matched sequence, every adjacent pair of matched cues satisfies
`end[i] ≤ start[i+1]` on the digit-stripped integer values, and a
sequence with fewer than 2 cues is left unchanged. -/
theorem c6_overlap_resolved (cues : List Cue) (matched : List Nat)
    (cues1 : List Cue) (h : timestampCheck cues matched = .ok cues1) :
    List.Chain' okPair (matched.map fun i => getCue cues1 i) ∧
      (matched.length < 2 → cues1 = cues) := by
  refine ⟨tsGo_chain h, fun hlen => ?_⟩
  unfold timestampCheck at h
  match matched, hlen with
  | [], _ =>
    rw [tsGo] at h
    exact (PyRes.ok.inj h).symm
  | [ci], _ =>
    rw [tsGo] at h
    cases hstop : (getCue cues ci).stop? with
    | none => simp [hstop] at h
    | some e =>
      simp only [hstop] at h
      cases hev : tsVal e with
      | none => simp [hev] at h
      | some endv =>
        simp only [hev] at h
        exact (PyRes.ok.inj h).symm

theorem c6_witness :
    List.Chain' okPair (([0, 1] : List Nat).map
        fun i => getCue overlapStoreOut i) ∧
      (([0, 1] : List Nat).length < 2 → overlapStoreOut = overlapStore) :=
  c6_overlap_resolved overlapStore [0, 1] overlapStoreOut (by decide)

/-- C10: `_timestamp_check` modifies at most the `end` fields of the
stored cues: the store length and every cue's `start`, `lines` and `id`
are unchanged (the matched index sequence itself is never touched, so
the output length and order are those of the input). -/
theorem c10_frame (cues : List Cue) (matched : List Nat) (cues1 : List Cue)
    (h : timestampCheck cues matched = .ok cues1) :
    cues1.length = cues.length ∧
      ∀ j, (getCue cues1 j).start? = (getCue cues j).start? ∧
        (getCue cues1 j).lines = (getCue cues j).lines ∧
        (getCue cues1 j).id? = (getCue cues j).id? :=
  tsGo_frame h

theorem c10_witness :
    (getCue overlapStoreOut 0).start? = (getCue overlapStore 0).start? :=
  ((c10_frame overlapStore [0, 1] overlapStoreOut (by decide)).2 0).1

/-- C4, amended: after processing, the id values of the matched-cue
sequence read in output order are exactly `1..N`, provided the matched
sequence holds no duplicated store reference (the code can violate this
via the dedup window, see the counterexample). -/
theorem c4_amended (raw : Str) (st : ProcState)
    (h : process raw = some (.ok st)) (hnd : st.matched.Nodup) :
    (derefMatched st).map Cue.id? =
      (List.range st.matched.length).map fun k => some (k + 1) := by
  unfold process at h
  simp only at h
  cases hml : matchLoopF (parseCues raw).queue.length (parseCues raw).cues
      (parseCues raw).queue [] with
  | none => rw [hml] at h; exact absurd h (by simp)
  | some r =>
    cases r with
    | exn => rw [hml] at h; exact absurd h (by simp)
    | ok p =>
      obtain ⟨cues1, matched⟩ := p
      rw [hml] at h
      simp only at h
      cases hts : timestampCheck (addId cues1 matched) matched with
      | exn => rw [hts] at h; exact absurd h (by simp)
      | ok cues3 =>
        rw [hts] at h
        simp only [Option.some.injEq, PyRes.ok.injEq] at h
        subst h
        simp only [derefMatched, List.map_map]
        have hts' : tsGo (addId cues1 matched) matched = .ok cues3 := hts
        have hfr := tsGo_frame hts'
        have hb : ∀ i ∈ matched, i < cues1.length :=
          (matchLoopF_bounds hml (by simp)).1
        have h1 : (matched.map (Cue.id? ∘ fun i => getCue cues3 i)) =
            matched.map fun i => (getCue (addIdGo cues1 0 matched) i).id? :=
          List.map_congr_left fun i _ => (hfr.2 i).2.2
        rw [h1, addIdGo_ids hnd hb]
        exact List.map_congr_left fun j _ => congrArg some (by omega)

/-- Helper for C7: appending an entry not present among the last 4
preserves the separation invariant. -/
theorem sepOK_append {q : List Str} {x : Str} (h : sepOK q)
    (hx : x ∉ last4 q) : sepOK (q ++ [x]) := by
  intro i j hi hj hij heq
  have hlen : (q ++ [x]).length = q.length + 1 := by simp
  by_cases hjq : j < q.length
  · have hiq : i < q.length := lt_trans hij hjq
    have heq' : q.get ⟨i, hiq⟩ = q.get ⟨j, hjq⟩ := by
      have e1 : (q ++ [x]).get ⟨i, hi⟩ = q.get ⟨i, hiq⟩ := by
        simp [List.get_eq_getElem, List.getElem_append_left hiq]
      have e2 : (q ++ [x]).get ⟨j, hj⟩ = q.get ⟨j, hjq⟩ := by
        simp [List.get_eq_getElem, List.getElem_append_left hjq]
      rw [← e1, ← e2, heq]
    exact h i j hiq hjq hij heq'
  · have hjlen : j = q.length := by
      rw [hlen] at hj
      omega
    have hiq : i < q.length := by omega
    have e2 : (q ++ [x]).get ⟨j, hj⟩ = x := by
      simp [List.get_eq_getElem, List.getElem_append_right (le_of_eq hjlen.symm),
        hjlen]
    have e1 : (q ++ [x]).get ⟨i, hi⟩ = q.get ⟨i, hiq⟩ := by
      simp [List.get_eq_getElem, List.getElem_append_left hiq]
    have hqx : q.get ⟨i, hiq⟩ = x := by rw [← e1, heq, e2]
    have hfar : i < q.length - 4 := by
      by_contra hcon
      refine hx ?_
      have hm : i - (q.length - 4) < (last4 q).length := by
        simp [last4]
        omega
      have : (last4 q).get ⟨i - (q.length - 4), hm⟩ = q.get ⟨i, hiq⟩ := by
        simp only [last4, List.get_eq_getElem, List.getElem_drop]
        congr 1
        omega
      rw [← hqx, ← this]
      exact List.get_mem _ _ _
    omega

theorem cueLineStep_sep {st : Cue × List Str} {line : Str}
    (h : sepOK st.2) : sepOK (cueLineStep st line).2 := by
  unfold cueLineStep
  cases timeRegMatch line with
  | some p => exact h
  | none =>
    simp only
    split
    · rename_i hcond
      exact sepOK_append h hcond.2
    · exact h

theorem foldl_cueLineStep_sep (lines : List Str) :
    ∀ st : Cue × List Str, sepOK st.2 →
      sepOK (lines.foldl cueLineStep st).2 := by
  induction lines with
  | nil => intro st h; exact h
  | cons l rest ih =>
    intro st h
    exact ih _ (cueLineStep_sep h)

theorem cueCleaner_sep (blk : Str) (q : List Str) (h : sepOK q) :
    sepOK (cueCleaner blk q).2 :=
  foldl_cueLineStep_sep _ _ h

theorem foldl_parseStep_sep (blocks : List Str) :
    ∀ st : List Cue × List Str, sepOK st.2 →
      sepOK (blocks.foldl parseStep st).2 := by
  induction blocks with
  | nil => intro st h; exact h
  | cons b rest ih =>
    intro st h
    exact ih _ (cueCleaner_sep b st.2 h)

/-- C7, amended: in the unique-line queue built by the splitter, any two
equal entries are at least 5 positions apart — a line is accepted unless
it is blank or equals one of the 4 most recently accepted entries, so a
line repeated in 5 consecutive cues is accepted once only when fewer
than 4 other lines are accepted in between (see the counterexample for
the failing general claim). -/
theorem c7_amended (raw : Str) : sepOK (parseCues raw).queue := by
  have h := foldl_parseStep_sep
    (splitBlocks (replaceNlSpNl raw)).tail ([], [])
    (by intro i j hi _ _ _; simp at hi)
  exact h

theorem c7_witness : (0 : Nat) + 5 ≤ 5 :=
  c7_amended windowFlushInput 0 5 (by decide) (by decide) (by decide)
    (by decide)

/-! ### C5 infrastructure: the match set as a list of cues -/

theorem getCue_cons_succ (c : Cue) (cs : List Cue) (i : Nat) :
    getCue (c :: cs) (i + 1) = getCue cs i := rfl

theorem getCue_cons_zero (c : Cue) (cs : List Cue) :
    getCue (c :: cs) 0 = c := rfl

theorem matchesOf_map (check : Str) : ∀ cues : List Cue,
    (matchesOf cues check).map (fun i => getCue cues i) =
      cuesContaining cues check := by
  intro cues
  induction cues with
  | nil => rfl
  | cons c cs ih =>
    unfold matchesOf cuesContaining
    unfold matchesOf cuesContaining at ih
    simp only [List.length_cons, List.range_succ_eq_map, List.filter_cons,
      List.filter_map, List.map_cons, List.map_map, Function.comp_def,
      Nat.succ_eq_add_one, getCue_cons_zero, getCue_cons_succ]
    have hfun : ((fun i => getCue (c :: cs) i) ∘ Nat.succ) =
        fun i => getCue cs i := funext fun i => rfl
    by_cases hc : check ∈ c.lines
    · simp [hc, hfun, ih, getCue_cons_zero]
    · simp [hc, hfun, ih, getCue_cons_zero]

/-- C5, amended: the cue appended by one aligner iteration for the
pending line `check` carries the `lines` of the last parsed cue
containing `check`, and its `start` is copied from the first cue in
document order containing `check` (as currently stored); when the cue
store is chronologically ordered by `start`, that value is the earliest
`start` among all cues containing `check`. -/
theorem c5_amended (cues : List Cue) (check : Str) (cues1 : List Cue)
    (chosen : Nat) (h : matchStep cues check = .ok (cues1, chosen)) :
    ∃ cl cf, (cuesContaining cues check).getLast? = some cl ∧
      (cuesContaining cues check).head? = some cf ∧
      (getCue cues1 chosen).lines = cl.lines ∧
      (getCue cues1 chosen).start? = cf.start? ∧
      (List.Pairwise (fun a b => startNum a ≤ startNum b) cues →
        ∀ c ∈ cuesContaining cues check, startNum cf ≤ startNum c) := by
  unfold matchStep at h
  cases hlast : (matchesOf cues check).getLast? with
  | none => simp [hlast] at h
  | some chosen0 =>
    cases hhead : (matchesOf cues check).head? with
    | none => simp [hlast, hhead] at h
    | some i0 =>
      simp only [hlast, hhead] at h
      cases hs : (getCue cues i0).start? with
      | none => simp [hs] at h
      | some s0 =>
        simp only [hs, PyRes.ok.injEq, Prod.mk.injEq] at h
        obtain ⟨hc1, hch⟩ := h
        subst hch
        subst hc1
        have hlt : chosen0 < cues.length :=
          (matchesOf_mem (mem_of_getLast?_eq hlast)).1
        refine ⟨getCue cues chosen0, getCue cues i0, ?_, ?_, ?_, ?_, ?_⟩
        · rw [← matchesOf_map, List.getLast?_map, hlast]
          rfl
        · rw [← matchesOf_map, List.head?_map, hhead]
          rfl
        · rw [getCue_set, if_pos ⟨rfl, hlt⟩]
        · rw [getCue_set, if_pos ⟨rfl, hlt⟩]
          exact hs.symm
        · intro hp c hcmem
          have hcf : cuesContaining cues check =
              getCue cues i0 :: (cuesContaining cues check).tail := by
            refine (List.cons_head?_tail ?_).symm
            rw [Option.mem_def, ← matchesOf_map, List.head?_map, hhead]
            rfl
          have hpf : List.Pairwise (fun a b => startNum a ≤ startNum b)
              (cuesContaining cues check) := hp.filter _
          rw [hcf] at hpf hcmem
          rcases List.mem_cons.1 hcmem with rfl | hmem
          · exact le_rfl
          · exact (List.pairwise_cons.1 hpf).1 c hmem

/-- C8, amended: the timestamp-range classifier accepts a
`<start> --> <end>` line whose two timestamps are each three two-digit
groups with an optional colon after each group (colon separator or no
separator), followed by `.mmm`; any such line sets the cue's `start` and
`end` to the two timestamps.  Other single-character separators are
rejected (see the counterexample). -/
theorem c8_amended (t1 t2 rest : Str) (h1 : isTimePart t1 = true)
    (h2 : isTimePart t2 = true) :
    timeRegMatch (t1 ++ (' ' :: '-' :: '-' :: '>' :: ' ' :: (t2 ++ rest))) =
        some (t1, t2) ∧
      ∀ st : Cue × List Str,
        (cueLineStep st
            (t1 ++ (' ' :: '-' :: '-' :: '>' :: ' ' ::
              (t2 ++ rest)))).1.start? = some t1 ∧
        (cueLineStep st
            (t1 ++ (' ' :: '-' :: '-' :: '>' :: ' ' ::
              (t2 ++ rest)))).1.stop? = some t2 := by
  have hm1 := matchTimePart_append (isTimePart_spec h1)
    (' ' :: '-' :: '-' :: '>' :: ' ' :: (t2 ++ rest))
  have hm2 : matchTimePart (t2 ++ rest) = some (t2, rest) :=
    matchTimePart_append (isTimePart_spec h2) rest
  have ht : timeRegMatch
      (t1 ++ (' ' :: '-' :: '-' :: '>' :: ' ' :: (t2 ++ rest))) =
      some (t1, t2) := by
    unfold timeRegMatch
    rw [hm1]
    simp only
    rw [hm2]
  refine ⟨ht, fun st => ?_⟩
  unfold cueLineStep
  rw [ht]
  exact ⟨rfl, rfl⟩

theorem c8_witness :
    timeRegMatch ("00:00:01.000".data ++ (' ' :: '-' :: '-' :: '>' :: ' ' ::
        ("000005.100".data ++ " position:0%".data))) =
      some ("00:00:01.000".data, "000005.100".data) :=
  (c8_amended _ _ _ (by decide) (by decide)).1

/-- C2, amended: the pipeline returns normally (no exception) provided
every parsed cue that contains a non-blank text line also carries a
timestamp line, with both timestamps containing at least one digit.
Without that proviso the pipeline can raise (see the counterexample, a
cue block with a text line and no timestamp line). -/
theorem c2_amended (raw : Str)
    (h : ∀ c ∈ (parseCues raw).cues,
      (∃ l ∈ c.lines, isBlank l = false) → goodCue c = true) :
    ∃ st, process raw = some (.ok st) := by
  have hg : goodStore (parseCues raw).cues := fun j hj hex =>
    h _ (getCue_mem hj) hex
  have hq := parseCues_queueInv raw
  obtain ⟨cues1, m, hml, hminv⟩ :=
    matchLoopF_graceful le_rfl hq hg
      (by intro i hi; exact absurd hi (List.not_mem_nil i))
  have hmadd : ∀ i ∈ m, i < (addIdGo cues1 0 m).length ∧
      goodCue (getCue (addIdGo cues1 0 m) i) = true := by
    intro i hi
    obtain ⟨hb, hgm⟩ := hminv i hi
    refine ⟨by rw [addIdGo_length]; exact hb, ?_⟩
    unfold goodCue at hgm ⊢
    rw [(addIdGo_start_stop m cues1 0 i).1, (addIdGo_start_stop m cues1 0 i).2]
    exact hgm
  obtain ⟨cues3, hts⟩ := tsGo_ok hmadd
  refine ⟨⟨(parseCues raw).header, cues3, m⟩, ?_⟩
  unfold process
  simp only
  rw [hml]
  simp only
  rw [show timestampCheck (addId cues1 m) m = .ok cues3 from hts]

theorem c2_witness : ∃ st, process scenarioA = some (.ok st) :=
  c2_amended scenarioA (by decide)

theorem c5_witness :
    ∃ cl cf,
      (cuesContaining (parseCues scenarioA).cues "Hello".data).getLast? =
          some cl ∧
        (cuesContaining (parseCues scenarioA).cues "Hello".data).head? =
          some cf ∧
        (getCue scenarioAMatchedStore 1).lines = cl.lines ∧
        (getCue scenarioAMatchedStore 1).start? = cf.start? ∧
        (List.Pairwise (fun a b => startNum a ≤ startNum b)
            (parseCues scenarioA).cues →
          ∀ c ∈ cuesContaining (parseCues scenarioA).cues "Hello".data,
            startNum cf ≤ startNum c) :=
  c5_amended (parseCues scenarioA).cues "Hello".data scenarioAMatchedStore 1
    (by decide)

theorem c4_witness :
    (derefMatched scenarioAProcOut).map Cue.id? =
      (List.range scenarioAProcOut.matched.length).map fun k => some (k + 1) :=
  c4_amended scenarioA scenarioAProcOut (by decide) (by decide)

/-! ### C3 infrastructure: characters of rendered fields -/

theorem isDigit_ne {c d : Char} (h : c.isDigit = true)
    (hd : d.isDigit = false) : c ≠ d := by
  intro he
  rw [he, hd] at h
  exact Bool.false_ne_true h

theorem digit_char_isDigit {k : Nat} (h : k < 10) :
    (Char.ofNat (48 + k)).isDigit = true := by
  interval_cases k <;> decide

theorem natDigitsF_digits {fuel n : Nat} :
    ∀ c ∈ natDigitsF fuel n, c.isDigit = true := by
  induction fuel generalizing n with
  | zero => intro c hc; simp [natDigitsF] at hc
  | succ fuel ih =>
    intro c hc
    unfold natDigitsF at hc
    by_cases h : n < 10
    · rw [if_pos h] at hc
      simp only [List.mem_singleton] at hc
      subst hc
      exact digit_char_isDigit h
    · rw [if_neg h] at hc
      rw [List.mem_append] at hc
      rcases hc with hc | hc
      · exact ih c hc
      · simp only [List.mem_singleton] at hc
        subst hc
        exact digit_char_isDigit (Nat.mod_lt n (by decide))

theorem natDigits_digits {n : Nat} : ∀ c ∈ natDigits n, c.isDigit = true :=
  natDigitsF_digits

theorem natDigitsF_ne_nil {fuel n : Nat} (h : 0 < fuel) :
    natDigitsF fuel n ≠ [] := by
  cases fuel with
  | zero => exact absurd h (by decide)
  | succ fuel =>
    unfold natDigitsF
    by_cases h10 : n < 10
    · rw [if_pos h10]; simp
    · rw [if_neg h10]; simp

theorem renderOptNat_chars {o : Option Nat} :
    ∀ c ∈ renderOptNat o,
      c.isDigit = true ∨ c = 'N' ∨ c = 'o' ∨ c = 'n' ∨ c = 'e' := by
  cases o with
  | none =>
    intro c hc
    right
    simpa [renderOptNat] using hc
  | some n => intro c hc; exact .inl (natDigits_digits c hc)

theorem renderOptNat_no_char {o : Option Nat} {d : Char}
    (hd : d.isDigit = false) (hN : d ≠ 'N') (ho : d ≠ 'o') (hn : d ≠ 'n')
    (he : d ≠ 'e') : d ∉ renderOptNat o := by
  intro hm
  rcases renderOptNat_chars d hm with h | h | h | h | h
  · rw [hd] at h; exact Bool.false_ne_true h
  · exact hN h
  · exact ho h
  · exact hn h
  · exact he h

theorem renderOptNat_head {o : Option Nat} :
    ∃ a r, renderOptNat o = a :: r ∧ a ≠ ' ' ∧ a ≠ '\n' := by
  cases o with
  | none => exact ⟨'N', ['o', 'n', 'e'], rfl, by decide, by decide⟩
  | some n =>
    obtain ⟨a, r, har⟩ : ∃ a r, natDigits n = a :: r := by
      cases hnd : natDigits n with
      | nil => exact absurd hnd (natDigitsF_ne_nil (Nat.succ_pos n))
      | cons a r => exact ⟨a, r, rfl⟩
    have ha : a.isDigit = true :=
      natDigits_digits a (har ▸ List.mem_cons_self a r)
    exact ⟨a, r, har, isDigit_ne ha (by decide), isDigit_ne ha (by decide)⟩

theorem matchGroup_rest_sub {s g r : Str} (h : matchGroup s = some (g, r)) :
    ∀ c ∈ r, c ∈ s := by
  match s with
  | [] => simp [matchGroup] at h
  | [a] => simp [matchGroup] at h
  | a :: b :: rest =>
    unfold matchGroup at h
    simp only at h
    split at h
    · split at h
      · simp only [Option.some.injEq, Prod.mk.injEq] at h
        intro c hc
        rw [← h.2] at hc
        exact List.mem_cons_of_mem a
          (List.mem_cons_of_mem b (List.mem_of_mem_tail hc))
      · simp only [Option.some.injEq, Prod.mk.injEq] at h
        intro c hc
        rw [← h.2] at hc
        exact List.mem_cons_of_mem a (List.mem_cons_of_mem b hc)
    · exact absurd h (by simp)

theorem matchGroup_chars {s g r : Str} (h : matchGroup s = some (g, r)) :
    ∀ c ∈ g, c.isDigit = true ∨ c = ':' := by
  match s with
  | [] => simp [matchGroup] at h
  | [a] => simp [matchGroup] at h
  | a :: b :: rest =>
    unfold matchGroup at h
    simp only at h
    split at h
    · rename_i hdig
      rw [Bool.and_eq_true] at hdig
      split at h
      · simp only [Option.some.injEq, Prod.mk.injEq] at h
        intro c hc
        rw [← h.1] at hc
        simp only [List.mem_cons, List.not_mem_nil, or_false] at hc
        rcases hc with rfl | rfl | rfl
        · exact .inl hdig.1
        · exact .inl hdig.2
        · exact .inr rfl
      · simp only [Option.some.injEq, Prod.mk.injEq] at h
        intro c hc
        rw [← h.1] at hc
        simp only [List.mem_cons, List.not_mem_nil, or_false] at hc
        rcases hc with rfl | rfl
        · exact .inl hdig.1
        · exact .inl hdig.2
    · exact absurd h (by simp)

theorem matchTimePart_chars {s t r : Str}
    (h : matchTimePart s = some (t, r)) :
    ∀ c ∈ t, c.isDigit = true ∨ c = ':' ∨ c = '.' := by
  unfold matchTimePart at h
  cases h1 : matchGroup s with
  | none => simp [h1] at h
  | some p1 =>
    obtain ⟨g1, r1⟩ := p1
    simp only [h1] at h
    cases h2 : matchGroup r1 with
    | none => simp [h2] at h
    | some p2 =>
      obtain ⟨g2, r2⟩ := p2
      simp only [h2] at h
      cases h3 : matchGroup r2 with
      | none => simp [h3] at h
      | some p3 =>
        obtain ⟨g3, r3⟩ := p3
        simp only [h3] at h
        split at h
        · rename_i x y z r4
          split at h
          · rename_i hdig
            simp only [Bool.and_eq_true] at hdig
            simp only [Option.some.injEq, Prod.mk.injEq] at h
            intro c hc
            rw [← h.1] at hc
            simp only [List.mem_append, List.mem_cons,
              List.not_mem_nil, or_false] at hc
            rcases hc with ((hc | hc) | hc) | hc | hc | hc | hc
            · rcases matchGroup_chars h1 c hc with hD | hcol
              · exact .inl hD
              · exact .inr (.inl hcol)
            · rcases matchGroup_chars h2 c hc with hD | hcol
              · exact .inl hD
              · exact .inr (.inl hcol)
            · rcases matchGroup_chars h3 c hc with hD | hcol
              · exact .inl hD
              · exact .inr (.inl hcol)
            · exact .inr (.inr hc)
            · exact hc ▸ .inl hdig.1.1
            · exact hc ▸ .inl hdig.1.2
            · exact hc ▸ .inl hdig.2
          · simp at h
        · simp at h

theorem isTimePart_chars {t : Str} (h : isTimePart t = true) :
    ∀ c ∈ t, c.isDigit = true ∨ c = ':' ∨ c = '.' :=
  matchTimePart_chars (isTimePart_spec h)

theorem isTimePart_no_char {t : Str} (h : isTimePart t = true) {d : Char}
    (hd : d.isDigit = false) (hc : d ≠ ':') (hdot : d ≠ '.') : d ∉ t := by
  intro hm
  rcases isTimePart_chars h d hm with h1 | h1 | h1
  · rw [hd] at h1; exact Bool.false_ne_true h1
  · exact hc h1
  · exact hdot h1

theorem isTimePart_head {t : Str} (h : isTimePart t = true) :
    ∃ a r, t = a :: r ∧ a.isDigit = true := by
  cases t with
  | nil => simp [isTimePart] at h
  | cons a t1 =>
    cases t1 with
    | nil => simp [isTimePart] at h
    | cons b r1 =>
      rw [isTimePart] at h
      simp only [Bool.and_eq_true] at h
      exact ⟨a, b :: r1, rfl, h.1.1⟩

theorem matchTimePart_none_no_dot {s : Str} (h : '.' ∉ s) :
    matchTimePart s = none := by
  unfold matchTimePart
  cases h1 : matchGroup s with
  | none => simp only [h1]
  | some p1 =>
    obtain ⟨g1, r1⟩ := p1
    simp only [h1]
    have hr1 : '.' ∉ r1 := fun hm => h (matchGroup_rest_sub h1 _ hm)
    cases h2 : matchGroup r1 with
    | none => simp only [h2]
    | some p2 =>
      obtain ⟨g2, r2⟩ := p2
      simp only [h2]
      have hr2 : '.' ∉ r2 := fun hm => hr1 (matchGroup_rest_sub h2 _ hm)
      cases h3 : matchGroup r2 with
      | none => simp only [h3]
      | some p3 =>
        obtain ⟨g3, r3⟩ := p3
        simp only [h3]
        have hr3 : '.' ∉ r3 := fun hm => hr2 (matchGroup_rest_sub h3 _ hm)
        split
        · rename_i x y z r4
          exact absurd (List.mem_cons_self '.' (x :: y :: z :: r4)) hr3
        · rfl

theorem timeRegMatch_none_no_dot {s : Str} (h : '.' ∉ s) :
    timeRegMatch s = none := by
  unfold timeRegMatch
  rw [matchTimePart_none_no_dot h]

theorem renderOptNat_no_dot {o : Option Nat} : '.' ∉ renderOptNat o :=
  renderOptNat_no_char (by decide) (by decide) (by decide) (by decide)
    (by decide)

theorem renderOptNat_no_nl {o : Option Nat} : '\n' ∉ renderOptNat o :=
  renderOptNat_no_char (by decide) (by decide) (by decide) (by decide)
    (by decide)

theorem renderOptNat_no_lt {o : Option Nat} : '<' ∉ renderOptNat o :=
  renderOptNat_no_char (by decide) (by decide) (by decide) (by decide)
    (by decide)

/-! ### C3 infrastructure: strip, split and replace on serialized text -/

theorem stripStampsF_no_lt (fuel : Nat) :
    ∀ {s : Str}, '<' ∉ s → stripStampsF fuel s = s := by
  induction fuel with
  | zero => intro s _; rfl
  | succ fuel ih =>
    intro s h
    cases s with
    | nil => rfl
    | cons c rest =>
      have hc : c ≠ '<' := fun he => h (he ▸ List.mem_cons_self c rest)
      have hrest : '<' ∉ rest := fun hm => h (List.mem_cons_of_mem c hm)
      unfold stripStampsF
      rw [if_neg hc, ih hrest]

theorem stripStamps_no_lt {s : Str} (h : '<' ∉ s) : stripStamps s = s :=
  stripStampsF_no_lt _ h

theorem stripTags_cons_ne {c : Char} (hc : c ≠ '<') (rest : Str) :
    stripTags (c :: rest) = c :: stripTags rest := by
  rw [stripTags.eq_def]
  split
  · rename_i heq
    exact absurd heq (by simp)
  · rename_i r2 heq
    injection heq with h1 _
    exact absurd h1 hc
  · rename_i r2 heq
    injection heq with h1 _
    exact absurd h1 hc
  · rename_i c2 r2 heq
    injection heq with h1 h2
    rw [← h1, ← h2]

theorem stripTags_no_lt {s : Str} (h : '<' ∉ s) : stripTags s = s := by
  induction s with
  | nil => rfl
  | cons c rest ih =>
    have hc : c ≠ '<' := fun he => h (he ▸ List.mem_cons_self c rest)
    have hrest : '<' ∉ rest := fun hm => h (List.mem_cons_of_mem c hm)
    rw [stripTags_cons_ne hc, ih hrest]

theorem splitNl_nl (rest : Str) : splitNl ('\n' :: rest) = [] :: splitNl rest :=
  rfl

theorem splitNl_cons_ne {c : Char} (hc : c ≠ '\n') {rest b : Str}
    {bs : List Str} (hr : splitNl rest = b :: bs) :
    splitNl (c :: rest) = (c :: b) :: bs := by
  rw [splitNl.eq_def]
  split
  · rename_i heq
    exact absurd heq (by simp)
  · rename_i r2 heq
    injection heq with h1 _
    exact absurd h1 hc
  · rename_i c2 r2 xs heq
    injection heq with h1 h2
    rw [← h1, ← h2, hr]

theorem splitNl_no_nl {s : Str} (h : '\n' ∉ s) : splitNl s = [s] := by
  induction s with
  | nil => rfl
  | cons c rest ih =>
    have hc : c ≠ '\n' := fun he => h (he ▸ List.mem_cons_self c rest)
    have hrest : '\n' ∉ rest := fun hm => h (List.mem_cons_of_mem c hm)
    rw [splitNl_cons_ne hc (ih hrest)]

theorem splitNl_append_no_nl {x rest : Str} (hx : '\n' ∉ x) {b : Str}
    {bs : List Str} (hr : splitNl rest = b :: bs) :
    splitNl (x ++ rest) = (x ++ b) :: bs := by
  induction x with
  | nil => simpa using hr
  | cons c x2 ih =>
    have hc : c ≠ '\n' := fun he => hx (he ▸ List.mem_cons_self c x2)
    have hx2 : '\n' ∉ x2 := fun hm => hx (List.mem_cons_of_mem c hm)
    rw [List.cons_append, splitNl_cons_ne hc (ih hx2), List.cons_append]

theorem splitBlocks_sep (rest : Str) :
    splitBlocks ('\n' :: '\n' :: rest) = [] :: splitBlocks rest := rfl

theorem splitBlocks_cons {c : Char} {rest : Str}
    (h : ¬(c = '\n' ∧ rest.head? = some '\n')) {b : Str} {bs : List Str}
    (hr : splitBlocks rest = b :: bs) :
    splitBlocks (c :: rest) = (c :: b) :: bs := by
  rw [splitBlocks.eq_def]
  split
  · rename_i r2 heq
    injection heq with h1 h2
    exact absurd ⟨h1, by rw [h2]; rfl⟩ h
  · rename_i c2 r2 xs heq
    injection heq with h1 h2
    rw [← h1, ← h2, hr]
  · rename_i heq
    exact absurd heq (by simp)

theorem splitBlocks_cons_ne {c : Char} (hc : c ≠ '\n') {rest b : Str}
    {bs : List Str} (hr : splitBlocks rest = b :: bs) :
    splitBlocks (c :: rest) = (c :: b) :: bs :=
  splitBlocks_cons (fun hp => hc hp.1) hr

theorem splitBlocks_append_no_nl {x rest : Str} (hx : '\n' ∉ x) {b : Str}
    {bs : List Str} (hr : splitBlocks rest = b :: bs) :
    splitBlocks (x ++ rest) = (x ++ b) :: bs := by
  induction x with
  | nil => simpa using hr
  | cons c x2 ih =>
    have hc : c ≠ '\n' := fun he => hx (he ▸ List.mem_cons_self c x2)
    have hx2 : '\n' ∉ x2 := fun hm => hx (List.mem_cons_of_mem c hm)
    rw [List.cons_append, splitBlocks_cons_ne hc (ih hx2), List.cons_append]

theorem replace_cons {c : Char} {rest : Str}
    (h : ¬(c = '\n' ∧ ∃ r2, rest = ' ' :: '\n' :: r2)) :
    replaceNlSpNl (c :: rest) = c :: replaceNlSpNl rest := by
  rw [replaceNlSpNl.eq_def]
  split
  · rename_i r2 heq
    injection heq with h1 h2
    exact absurd ⟨h1, r2, h2⟩ h
  · rename_i c2 r2 xs heq
    injection heq with h1 h2
    rw [← h1, ← h2]
  · rename_i heq
    exact absurd heq (by simp)

theorem replace_cons_ne {c : Char} (hc : c ≠ '\n') (rest : Str) :
    replaceNlSpNl (c :: rest) = c :: replaceNlSpNl rest :=
  replace_cons fun hp => hc hp.1

theorem replace_append_no_nl {x rest : Str} (hx : '\n' ∉ x) :
    replaceNlSpNl (x ++ rest) = x ++ replaceNlSpNl rest := by
  induction x with
  | nil => rfl
  | cons c x2 ih =>
    have hc : c ≠ '\n' := fun he => hx (he ▸ List.mem_cons_self c x2)
    have hx2 : '\n' ∉ x2 := fun hm => hx (List.mem_cons_of_mem c hm)
    rw [List.cons_append, replace_cons_ne hc, ih hx2, List.cons_append]

theorem rtTs_some {o : Option Str} (h : rtTs o = true) :
    ∃ s, o = some s ∧ isTimePart s = true := by
  cases o with
  | none => simp [rtTs] at h
  | some s => exact ⟨s, rfl, h⟩

theorem rtLine_spec {c : Cue} (h : rtLine c = true) :
    ∃ l, c.lines = [l] ∧ isBlank l = false ∧ '\n' ∉ l ∧
      stripStamps l = l ∧ stripTags l = l ∧ timeRegMatch l = none := by
  unfold rtLine at h
  split at h
  · rename_i l heq
    simp only [Bool.and_eq_true, Bool.not_eq_true', decide_eq_true_eq] at h
    refine ⟨l, heq, h.1.1.1.1, ?_, h.1.1.2, h.1.2, h.2⟩
    intro hm
    have hct := h.1.1.1.2
    simp only [List.contains, List.elem_eq_mem,
      decide_eq_false_iff_not] at hct
    exact hct hm
  · exact absurd h (by simp)

theorem intercalate_single (l : Str) : List.intercalate ['\n'] [l] = l := by
  simp [List.intercalate]

theorem timeRegMatch_pair {S E : Str} (hS : isTimePart S = true)
    (hE : isTimePart E = true) :
    timeRegMatch (S ++ ' ' :: '-' :: '-' :: '>' :: ' ' :: E) =
      some (S, E) := by
  unfold timeRegMatch
  rw [matchTimePart_append (isTimePart_spec hS)]
  simp only
  rw [isTimePart_spec hE]

theorem cueLineStep_fst (st : Cue × List Str) (line : Str) :
    (cueLineStep st line).1 = cueFst st.1 line := by
  cases h : timeRegMatch line with
  | some p =>
    obtain ⟨a, b⟩ := p
    simp [cueLineStep, cueFst, h]
  | none =>
    simp only [cueLineStep, cueFst, h]
    split <;> rfl

theorem foldl_cueFst (lines : List Str) : ∀ st : Cue × List Str,
    (lines.foldl cueLineStep st).1 = lines.foldl cueFst st.1 := by
  induction lines with
  | nil => intro st; rfl
  | cons x rest ih =>
    intro st
    rw [List.foldl_cons, List.foldl_cons, ih, cueLineStep_fst]

theorem cueCleaner_fst (blk : Str) (q : List Str) :
    (cueCleaner blk q).1 = (splitNl blk).foldl cueFst {} :=
  foldl_cueFst (splitNl blk) ({}, q)

theorem foldl_parseStep_cues (blocks : List Str) :
    ∀ (acc : List Cue) (q : List Str),
      (blocks.foldl parseStep (acc, q)).1 =
        acc ++ blocks.map fun blk => (splitNl blk).foldl cueFst {} := by
  induction blocks with
  | nil => intro acc q; simp
  | cons blk rest ih =>
    intro acc q
    rw [List.foldl_cons,
      show parseStep (acc, q) blk =
        (acc ++ [(cueCleaner blk q).1], (cueCleaner blk q).2) from rfl,
      ih, cueCleaner_fst]
    simp [List.append_assoc]

theorem parseCues_header (raw : Str) :
    (parseCues raw).header = (splitBlocks (replaceNlSpNl raw)).headD [] :=
  rfl

theorem parseCues_cues (raw : Str) :
    (parseCues raw).cues =
      ((splitBlocks (replaceNlSpNl raw)).tail.foldl parseStep ([], [])).1 :=
  rfl

theorem isTimePart_no_nl {t : Str} (h : isTimePart t = true) : '\n' ∉ t :=
  isTimePart_no_char h (by decide) (by decide) (by decide)

theorem isTimePart_ne_nil {t : Str} (h : isTimePart t = true) : t ≠ [] := by
  obtain ⟨a, r, ht, -⟩ := isTimePart_head h
  rw [ht]
  exact List.cons_ne_nil a r

theorem isTimePart_head_ne_sp {t : Str} (h : isTimePart t = true) :
    t.head? ≠ some ' ' := by
  obtain ⟨a, r, ht, ha⟩ := isTimePart_head h
  rw [ht]
  intro hh
  simp only [List.head?_cons, Option.some.injEq] at hh
  exact isDigit_ne ha (by decide) hh

theorem nonblank_ne_nil {l : Str} (h : isBlank l = false) : l ≠ [] := by
  intro he
  rw [he] at h
  exact absurd h (by decide)

theorem splitBlocks_rt {x S E l F : Str} (hx : '\n' ∉ x) (hS : '\n' ∉ S)
    (hE : '\n' ∉ E) (hl : '\n' ∉ l) (hSne : S ≠ []) (hlne : l ≠ [])
    {bs : List Str} (hF : splitBlocks F = bs) :
    splitBlocks (x ++ '\n' :: (S ++ ' ' :: '-' :: '-' :: '>' :: ' ' ::
        (E ++ '\n' :: (l ++ '\n' :: '\n' :: F)))) =
      (x ++ '\n' :: (S ++ ' ' :: '-' :: '-' :: '>' :: ' ' ::
        (E ++ '\n' :: l))) :: bs := by
  have s5 : splitBlocks ('\n' :: '\n' :: F) = [] :: bs := by
    rw [splitBlocks_sep, hF]
  have s4 : splitBlocks (l ++ '\n' :: '\n' :: F) = l :: bs := by
    have h := splitBlocks_append_no_nl hl s5
    simpa using h
  have s3 : splitBlocks ('\n' :: (l ++ '\n' :: '\n' :: F)) =
      ('\n' :: l) :: bs := by
    refine splitBlocks_cons ?_ s4
    rintro ⟨-, hh⟩
    cases l with
    | nil => exact hlne rfl
    | cons u lr =>
      simp only [List.cons_append, List.head?_cons, Option.some.injEq] at hh
      apply hl
      rw [← hh]
      exact List.mem_cons_self u lr
  have sE : splitBlocks (E ++ '\n' :: (l ++ '\n' :: '\n' :: F)) =
      (E ++ '\n' :: l) :: bs := splitBlocks_append_no_nl hE s3
  have sP : splitBlocks (' ' :: '-' :: '-' :: '>' :: ' ' ::
      (E ++ '\n' :: (l ++ '\n' :: '\n' :: F))) =
      (' ' :: '-' :: '-' :: '>' :: ' ' :: (E ++ '\n' :: l)) :: bs :=
    splitBlocks_cons_ne (by decide)
      (splitBlocks_cons_ne (by decide)
        (splitBlocks_cons_ne (by decide)
          (splitBlocks_cons_ne (by decide)
            (splitBlocks_cons_ne (by decide) sE))))
  have sS : splitBlocks (S ++ ' ' :: '-' :: '-' :: '>' :: ' ' ::
      (E ++ '\n' :: (l ++ '\n' :: '\n' :: F))) =
      (S ++ ' ' :: '-' :: '-' :: '>' :: ' ' :: (E ++ '\n' :: l)) :: bs :=
    splitBlocks_append_no_nl hS sP
  have s1 : splitBlocks ('\n' :: (S ++ ' ' :: '-' :: '-' :: '>' :: ' ' ::
      (E ++ '\n' :: (l ++ '\n' :: '\n' :: F)))) =
      ('\n' :: (S ++ ' ' :: '-' :: '-' :: '>' :: ' ' ::
        (E ++ '\n' :: l))) :: bs := by
    refine splitBlocks_cons ?_ sS
    rintro ⟨-, hh⟩
    cases S with
    | nil => exact hSne rfl
    | cons u Sr =>
      simp only [List.cons_append, List.head?_cons, Option.some.injEq] at hh
      apply hS
      rw [← hh]
      exact List.mem_cons_self u Sr
  exact splitBlocks_append_no_nl hx s1

theorem replace_rt {x S E l F : Str} (hx : '\n' ∉ x) (hS : '\n' ∉ S)
    (hE : '\n' ∉ E) (hl : '\n' ∉ l) (hSne : S ≠ [])
    (hSsp : S.head? ≠ some ' ') (hlbl : isBlank l = false)
    (hFsp : ∀ r2, F ≠ ' ' :: '\n' :: r2) (hFrep : replaceNlSpNl F = F) :
    replaceNlSpNl (x ++ '\n' :: (S ++ ' ' :: '-' :: '-' :: '>' :: ' ' ::
        (E ++ '\n' :: (l ++ '\n' :: '\n' :: F)))) =
      x ++ '\n' :: (S ++ ' ' :: '-' :: '-' :: '>' :: ' ' ::
        (E ++ '\n' :: (l ++ '\n' :: '\n' :: F))) := by
  have rF : replaceNlSpNl ('\n' :: F) = '\n' :: F := by
    rw [replace_cons (by rintro ⟨-, r2, hh⟩; exact hFsp r2 hh), hFrep]
  have r5 : replaceNlSpNl ('\n' :: '\n' :: F) = '\n' :: '\n' :: F := by
    have hcond : ¬(('\n' : Char) = '\n' ∧
        ∃ r2, ('\n' :: F : Str) = ' ' :: '\n' :: r2) := by
      rintro ⟨-, r2, hh⟩
      injection hh with h1 h2
      exact absurd h1 (by decide)
    rw [replace_cons hcond, rF]
  have r4 : replaceNlSpNl (l ++ '\n' :: '\n' :: F) =
      l ++ '\n' :: '\n' :: F := by
    rw [replace_append_no_nl hl, r5]
  have r3 : replaceNlSpNl ('\n' :: (l ++ '\n' :: '\n' :: F)) =
      '\n' :: (l ++ '\n' :: '\n' :: F) := by
    have hcond : ¬(('\n' : Char) = '\n' ∧
        ∃ r2, l ++ '\n' :: '\n' :: F = ' ' :: '\n' :: r2) := by
      rintro ⟨-, r2, hh⟩
      cases l with
      | nil => exact nonblank_ne_nil hlbl rfl
      | cons u lr =>
        cases lr with
        | nil =>
          simp only [List.cons_append, List.nil_append,
            List.cons.injEq] at hh
          rw [hh.1] at hlbl
          exact absurd hlbl (by decide)
        | cons v lr2 =>
          simp only [List.cons_append, List.cons.injEq] at hh
          apply hl
          rw [← hh.2.1]
          exact List.mem_cons_of_mem u (List.mem_cons_self v lr2)
    rw [replace_cons hcond, r4]
  have rE : replaceNlSpNl (E ++ '\n' :: (l ++ '\n' :: '\n' :: F)) =
      E ++ '\n' :: (l ++ '\n' :: '\n' :: F) := by
    rw [replace_append_no_nl hE, r3]
  have rP : replaceNlSpNl (' ' :: '-' :: '-' :: '>' :: ' ' ::
      (E ++ '\n' :: (l ++ '\n' :: '\n' :: F))) =
      ' ' :: '-' :: '-' :: '>' :: ' ' ::
        (E ++ '\n' :: (l ++ '\n' :: '\n' :: F)) := by
    rw [replace_cons_ne (by decide), replace_cons_ne (by decide),
      replace_cons_ne (by decide), replace_cons_ne (by decide),
      replace_cons_ne (by decide), rE]
  have rS : replaceNlSpNl (S ++ ' ' :: '-' :: '-' :: '>' :: ' ' ::
      (E ++ '\n' :: (l ++ '\n' :: '\n' :: F))) =
      S ++ ' ' :: '-' :: '-' :: '>' :: ' ' ::
        (E ++ '\n' :: (l ++ '\n' :: '\n' :: F)) := by
    rw [replace_append_no_nl hS, rP]
  have r1 : replaceNlSpNl ('\n' :: (S ++ ' ' :: '-' :: '-' :: '>' :: ' ' ::
      (E ++ '\n' :: (l ++ '\n' :: '\n' :: F)))) =
      '\n' :: (S ++ ' ' :: '-' :: '-' :: '>' :: ' ' ::
        (E ++ '\n' :: (l ++ '\n' :: '\n' :: F))) := by
    have hcond : ¬(('\n' : Char) = '\n' ∧
        ∃ r2, S ++ ' ' :: '-' :: '-' :: '>' :: ' ' ::
          (E ++ '\n' :: (l ++ '\n' :: '\n' :: F)) =
            ' ' :: '\n' :: r2) := by
      rintro ⟨-, r2, hh⟩
      cases S with
      | nil => exact hSne rfl
      | cons u Sr =>
        simp only [List.cons_append, List.cons.injEq] at hh
        apply hSsp
        simp only [List.head?_cons, Option.some.injEq]
        exact hh.1
    rw [replace_cons hcond, rS]
  rw [replace_append_no_nl hx, r1]

theorem cueBlock_shape {c : Cue} {S E l : Str} (hS : c.start? = some S)
    (hE : c.stop? = some E) (hl : c.lines = [l]) (F : Str) :
    cueBlock c ++ F =
      renderOptNat c.id? ++ '\n' :: (S ++ ' ' :: '-' :: '-' :: '>' :: ' ' ::
        (E ++ '\n' :: (l ++ '\n' :: '\n' :: F))) := by
  simp [cueBlock, hS, hE, hl, renderOptStr, intercalate_single,
    List.append_assoc, List.cons_append]

theorem rtBlock_shape {c : Cue} {S E l : Str} (hS : c.start? = some S)
    (hE : c.stop? = some E) (hl : c.lines = [l]) :
    rtBlock c =
      renderOptNat c.id? ++ '\n' :: (S ++ ' ' :: '-' :: '-' :: '>' :: ' ' ::
        (E ++ '\n' :: l)) := by
  simp [rtBlock, hS, hE, hl, renderOptStr, intercalate_single,
    List.append_assoc, List.cons_append]

theorem rtCueOK_spec {c : Cue} (h : rtCueOK c = true) :
    ∃ S E l, c.start? = some S ∧ c.stop? = some E ∧ c.lines = [l] ∧
      isTimePart S = true ∧ isTimePart E = true ∧ isBlank l = false ∧
      '\n' ∉ l ∧ stripStamps l = l ∧ stripTags l = l ∧
      timeRegMatch l = none := by
  simp only [rtCueOK, Bool.and_eq_true] at h
  obtain ⟨⟨hts, hte⟩, hln⟩ := h
  obtain ⟨S, hS, hSt⟩ := rtTs_some hts
  obtain ⟨E, hE, hEt⟩ := rtTs_some hte
  obtain ⟨l, hl, hlbl, hlnl, hlst, hltg, hltr⟩ := rtLine_spec hln
  exact ⟨S, E, l, hS, hE, hl, hSt, hEt, hlbl, hlnl, hlst, hltg, hltr⟩

theorem rt_flatten_split : ∀ ms : List Cue, (∀ c ∈ ms, rtCueOK c = true) →
    splitBlocks ((ms.map cueBlock).flatten) = ms.map rtBlock ++ [[]] := by
  intro ms
  induction ms with
  | nil => intro _; rfl
  | cons c ms ih =>
    intro h
    have hrec := ih fun x hx => h x (List.mem_cons_of_mem c hx)
    obtain ⟨S, E, l, hS, hE, hl, hSt, hEt, hlbl, hlnl, -, -, -⟩ :=
      rtCueOK_spec (h c (List.mem_cons_self c ms))
    rw [List.map_cons, List.flatten_cons, cueBlock_shape hS hE hl,
      splitBlocks_rt renderOptNat_no_nl (isTimePart_no_nl hSt)
        (isTimePart_no_nl hEt) hlnl (isTimePart_ne_nil hSt)
        (nonblank_ne_nil hlbl) hrec,
      List.map_cons, List.cons_append, rtBlock_shape hS hE hl]

theorem rt_flatten_replace : ∀ ms : List Cue,
    (∀ c ∈ ms, rtCueOK c = true) →
    (replaceNlSpNl ((ms.map cueBlock).flatten) = (ms.map cueBlock).flatten ∧
      ∀ r2, (ms.map cueBlock).flatten ≠ ' ' :: '\n' :: r2) := by
  intro ms
  induction ms with
  | nil =>
    intro _
    exact ⟨rfl, by intro r2 hcon; exact absurd hcon (by simp)⟩
  | cons c ms ih =>
    intro h
    obtain ⟨hrec, hsp⟩ := ih fun x hx => h x (List.mem_cons_of_mem c hx)
    obtain ⟨S, E, l, hS, hE, hl, hSt, hEt, hlbl, hlnl, -, -, -⟩ :=
      rtCueOK_spec (h c (List.mem_cons_self c ms))
    rw [List.map_cons, List.flatten_cons, cueBlock_shape hS hE hl]
    obtain ⟨a, t, hat, hasp, -⟩ := renderOptNat_head (o := c.id?)
    constructor
    · exact replace_rt renderOptNat_no_nl (isTimePart_no_nl hSt)
        (isTimePart_no_nl hEt) hlnl (isTimePart_ne_nil hSt)
        (isTimePart_head_ne_sp hSt) hlbl hsp hrec
    · intro r2 hcon
      rw [hat, List.cons_append] at hcon
      injection hcon with h1 h2
      exact hasp h1

theorem rt_block_cue {c : Cue} (h : rtCueOK c = true) :
    (splitNl (rtBlock c)).foldl cueFst {} = rtReparsed c := by
  obtain ⟨S, E, l, hS, hE, hl, hSt, hEt, hlbl, hlnl, hlst, hltg, hltr⟩ :=
    rtCueOK_spec h
  have h1 : splitNl ('\n' :: l) = [] :: [l] := by
    rw [splitNl_nl, splitNl_no_nl hlnl]
  have h2 : splitNl (E ++ '\n' :: l) = (E ++ []) :: [l] :=
    splitNl_append_no_nl (isTimePart_no_nl hEt) h1
  rw [List.append_nil] at h2
  have h3 : splitNl (' ' :: '-' :: '-' :: '>' :: ' ' :: (E ++ '\n' :: l)) =
      (' ' :: '-' :: '-' :: '>' :: ' ' :: E) :: [l] :=
    splitNl_cons_ne (by decide) (splitNl_cons_ne (by decide)
      (splitNl_cons_ne (by decide) (splitNl_cons_ne (by decide)
        (splitNl_cons_ne (by decide) h2))))
  have h4 : splitNl (S ++ ' ' :: '-' :: '-' :: '>' :: ' ' ::
      (E ++ '\n' :: l)) =
      (S ++ ' ' :: '-' :: '-' :: '>' :: ' ' :: E) :: [l] :=
    splitNl_append_no_nl (isTimePart_no_nl hSt) h3
  have h5 : splitNl ('\n' :: (S ++ ' ' :: '-' :: '-' :: '>' :: ' ' ::
      (E ++ '\n' :: l))) =
      [] :: (S ++ ' ' :: '-' :: '-' :: '>' :: ' ' :: E) :: [l] := by
    rw [splitNl_nl, h4]
  have h6 : splitNl (rtBlock c) =
      renderOptNat c.id? ::
        (S ++ ' ' :: '-' :: '-' :: '>' :: ' ' :: E) :: [l] := by
    rw [rtBlock_shape hS hE hl]
    have hap := @splitNl_append_no_nl (renderOptNat c.id?) _
      renderOptNat_no_nl _ _ h5
    rw [List.append_nil] at hap
    exact hap
  rw [h6]
  simp only [List.foldl_cons, List.foldl_nil]
  have hstep1 : cueFst {} (renderOptNat c.id?) =
      { lines := [renderOptNat c.id?] } := by
    unfold cueFst
    simp only [timeRegMatch_none_no_dot renderOptNat_no_dot,
      stripStamps_no_lt renderOptNat_no_lt,
      stripTags_no_lt renderOptNat_no_lt, List.nil_append]
  have hstep2 : cueFst { lines := [renderOptNat c.id?] }
      (S ++ ' ' :: '-' :: '-' :: '>' :: ' ' :: E) =
      { start? := some S, stop? := some E,
        lines := [renderOptNat c.id?] } := by
    unfold cueFst
    simp only [timeRegMatch_pair hSt hEt]
  have hstep3 : cueFst
      ({ start? := some S, stop? := some E, lines := [renderOptNat c.id?] })
      l =
      { start? := some S, stop? := some E,
        lines := [renderOptNat c.id?, l] } := by
    unfold cueFst
    simp only [hltr, hlst, hltg, List.singleton_append,
      List.cons_append, List.nil_append]
  rw [hstep1, hstep2, hstep3]
  simp [rtReparsed, hS, hE, hl]

theorem rt_empty_cue :
    (splitNl ([] : Str)).foldl cueFst {} = ({ lines := [[]] } : Cue) := rfl

/-- C3: amended round-trip property.  Serializing a matched-cue sequence
(each cue with one non-blank markup-free text line and well-formed
`HH:MM:SS.mmm` timestamps, under a newline-free header) and re-splitting
the result with `_parse_cues` reproduces the header, and yields one cue
per matched cue, in order, with identical start and end timestamps — but
the serialized id is prepended to the lines as an extra text line, the id
key is absent, and one extra trailing empty cue arises from the final
blank separator.  The spec's claim of an identical cue list is false
(`c3_counterexample`). -/
theorem c3_amended (header : Str) (ms : List Cue) (hh : '\n' ∉ header)
    (hm : ∀ c ∈ ms, rtCueOK c = true) :
    (parseCues (getSubtitleStr header ms)).header = header ∧
    (parseCues (getSubtitleStr header ms)).cues =
      ms.map rtReparsed ++ [{ lines := [[]] }] := by
  obtain ⟨hrep, hFsp⟩ := rt_flatten_replace ms hm
  have hraw : replaceNlSpNl (getSubtitleStr header ms) =
      getSubtitleStr header ms := by
    unfold getSubtitleStr
    rw [replace_append_no_nl hh]
    have hcond1 : ¬(('\n' : Char) = '\n' ∧
        ∃ r2, (ms.map cueBlock).flatten = ' ' :: '\n' :: r2) := by
      rintro ⟨-, r2, hcon⟩
      exact hFsp r2 hcon
    have hcond2 : ¬(('\n' : Char) = '\n' ∧
        ∃ r2, ('\n' :: (ms.map cueBlock).flatten : Str) =
          ' ' :: '\n' :: r2) := by
      rintro ⟨-, r2, hcon⟩
      injection hcon with hcx hcy
      exact absurd hcx (by decide)
    rw [replace_cons hcond2, replace_cons hcond1, hrep]
  have hsplit : splitBlocks (getSubtitleStr header ms) =
      header :: (ms.map rtBlock ++ [[]]) := by
    unfold getSubtitleStr
    have hsep : splitBlocks ('\n' :: '\n' :: (ms.map cueBlock).flatten) =
        [] :: (ms.map rtBlock ++ [[]]) := by
      rw [splitBlocks_sep, rt_flatten_split ms hm]
    have happ := splitBlocks_append_no_nl hh hsep
    rw [List.append_nil] at happ
    exact happ
  constructor
  · rw [parseCues_header, hraw, hsplit]
    rfl
  · rw [parseCues_cues, hraw, hsplit]
    simp only [List.tail_cons]
    rw [foldl_parseStep_cues]
    simp only [List.nil_append, List.map_append, List.map_cons,
      List.map_nil]
    congr 1
    rw [List.map_map]
    apply List.map_congr_left
    intro c hc
    exact rt_block_cue (hm c hc)

theorem c3_witness :
    (parseCues (getSubtitleStr "WEBVTT".data [rtCue])).header =
        "WEBVTT".data ∧
      (parseCues (getSubtitleStr "WEBVTT".data [rtCue])).cues =
        [rtCue].map rtReparsed ++ [{ lines := [[]] }] :=
  c3_amended "WEBVTT".data [rtCue] (by decide) (by decide)

end TubeArchivist
